import Mathlib

/-!
Verification of the ZQL incremental query core (AST normalization, LIKE
compilation, pipeline building, Join bookkeeping) against its specification.

The TypeScript sources are shallowly embedded: machine numbers are modelled
as `Int`/`Nat`, JS strings as Lean `String` (UTF-8 byte order on valid
Unicode strings coincides with code-point order, so `compare-utf8` is
modelled by code-point lexicographic comparison), fallible code returns
`Option`/`Except`, and JS's stable `Array.prototype.sort` is modelled by a
structurally recursive stable insertion sort.
-/

namespace ZQL

/-! ## Comparators (model of `compare-utf8` and JS comparator composition) -/

def cmpNat (a b : Nat) : Ordering :=
  if a < b then .lt else if b < a then .gt else .eq

/-- Code-point lexicographic comparison of character lists; models
`compareUTF8` (UTF-8 byte order equals code-point order). -/
def cmpChars : List Char → List Char → Ordering
  | [], [] => .eq
  | [], _ :: _ => .lt
  | _ :: _, [] => .gt
  | a :: as, b :: bs => (cmpNat a.toNat b.toNat).then (cmpChars as bs)

def cmpStr (a b : String) : Ordering := cmpChars a.data b.data

/-! ## Stable sort (model of JS `Array.prototype.sort`, which is stable) -/

def insertLE (le : α → α → Bool) (a : α) : List α → List α
  | [] => [a]
  | b :: l => if le a b then a :: b :: l else b :: insertLE le a l

def sortLE (le : α → α → Bool) : List α → List α
  | [] => []
  | a :: l => insertLE le a (sortLE le l)

/-! ## Decimal rendering (model of JS number/`String(...)` conversion) -/

def digitChar (d : Nat) : Char := Char.ofNat (48 + d)

def natDecAux : Nat → Nat → List Char
  | 0, _ => []
  | fuel + 1, n =>
    if n < 10 then [digitChar n] else digitChar (n % 10) :: natDecAux fuel (n / 10)

def natDecRev (n : Nat) : List Char := natDecAux (n + 1) n

def natDec (n : Nat) : List Char := (natDecRev n).reverse

def intDec : Int → List Char
  | .ofNat n => natDec n
  | .negSucc n => '-' :: natDec (n + 1)

/-! ## Primitive values (`Primitive` in `ast.ts`, `NormalizedValue` in `data.ts`) -/

inductive Prim where
  | s (v : String)
  | i (v : Int)
  | b (v : Bool)
  | null
deriving DecidableEq, Repr

/-- JS `String(value)` on a primitive. -/
def primToString : Prim → String
  | .s v => v
  | .i v => ⟨intDec v⟩
  | .b true => "true"
  | .b false => "false"
  | .null => "null"

/-! ## Conditions and the AST (`ast.ts`) -/

inductive ConjOp where
  | and
  | or
deriving DecidableEq, Repr

def ConjOp.toStr : ConjOp → String
  | .and => "AND"
  | .or => "OR"

inductive Cond where
  | simple (op : String) (field : String) (value : Prim)
  | conj (op : ConjOp) (conditions : List Cond)

mutual

def decEqCond : (a b : Cond) → Decidable (a = b)
  | .simple o1 f1 v1, .simple o2 f2 v2 =>
    decidable_of_iff (o1 = o2 ∧ f1 = f2 ∧ v1 = v2) (by simp)
  | .simple _ _ _, .conj _ _ => isFalse (by simp)
  | .conj _ _, .simple _ _ _ => isFalse (by simp)
  | .conj o1 cs1, .conj o2 cs2 =>
    have : Decidable (cs1 = cs2) := decEqCondList cs1 cs2
    decidable_of_iff (o1 = o2 ∧ cs1 = cs2) (by simp)

def decEqCondList : (a b : List Cond) → Decidable (a = b)
  | [], [] => isTrue rfl
  | [], _ :: _ => isFalse (by simp)
  | _ :: _, [] => isFalse (by simp)
  | a :: as, b :: bs =>
    have : Decidable (a = b) := decEqCond a b
    have : Decidable (as = bs) := decEqCondList as bs
    decidable_of_iff (a = b ∧ as = bs) (by simp)

end

instance : DecidableEq Cond := decEqCond

structure Aggregation where
  field : Option String
  aggAlias : String
  aggregate : String
deriving DecidableEq

structure AST where
  table : String
  tableAlias : Option String
  select : Option (List (String × String))
  aggregate : Option (List Aggregation)
  whereClause : Option Cond
  limit : Option Int
  groupBy : Option (List String)
  orderBy : List String × String
deriving DecidableEq

/-! ## `flattened` (ast.ts:134-159)

`flattened` maps `undefined → undefined`, simple conditions to themselves,
and for a Conjunction computes
`defined(cond.conditions.flatMap(c => c.op === cond.op ? c.conditions.map(flattened) : flattened(c)))`,
then collapses empty results to `undefined` and singletons to the child.
`flattenInto` is that flatMap (a simple condition's `op` is a
`SimpleOperator`, which is never `'AND'`/`'OR'`, so only a Conjunction can
match the parent's op); `flattenTop` is the inner
`c.conditions.map(flattened)` with undefined entries dropped by `defined`. -/

mutual

def flattenedC : Cond → Option Cond
  | .simple op f v => some (.simple op f v)
  | .conj op cs =>
    match flattenInto op cs with
    | [] => none
    | [c] => some c
    | conditions => some (.conj op conditions)

def flattenInto (op : ConjOp) : List Cond → List Cond
  | [] => []
  | c :: rest =>
    (match c with
     | .conj op2 cs2 =>
       if op2 = op then flattenTop cs2 else (flattenedC (.conj op2 cs2)).toList
     | .simple o f v => (flattenedC (.simple o f v)).toList) ++ flattenInto op rest

def flattenTop : List Cond → List Cond
  | [] => []
  | c :: rest => (flattenedC c).toList ++ flattenTop rest

end

def flattened : Option Cond → Option Cond
  | none => none
  | some c => flattenedC c

/-! ## `cmp` and `sorted` (ast.ts:161-213) -/

mutual

def cmpCond : Cond → Cond → Ordering
  | .simple aop af av, .simple bop bf bv =>
    (cmpStr af bf).then ((cmpStr aop bop).then
      (cmpStr (primToString av) (primToString bv)))
  | .simple _ _ _, .conj _ _ => .lt
  | .conj _ _, .simple _ _ _ => .gt
  | .conj aop acs, .conj bop bcs =>
    (cmpStr aop.toStr bop.toStr).then (cmpCondList acs bcs)

def cmpCondList : List Cond → List Cond → Ordering
  | [], [] => .eq
  | [], _ :: _ => .lt
  | _ :: _, [] => .gt
  | a :: as, b :: bs => (cmpCond a b).then (cmpCondList as bs)

end

def condLE (a b : Cond) : Bool := cmpCond a b ≠ .gt

mutual

def sortedC : Cond → Cond
  | .simple op f v => .simple op f v
  | .conj op cs => .conj op (sortLE condLE (sortedList cs))

def sortedList : List Cond → List Cond
  | [] => []
  | c :: rest => sortedC c :: sortedList rest

end

/-! ## `normalizeAST` (ast.ts:99-121) -/

def selectLE (a b : String × String) : Bool := cmpStr a.1 b.1 ≠ .gt

def aggLE (a b : Aggregation) : Bool :=
  ((cmpStr a.aggregate b.aggregate).then
    (cmpStr (a.field.getD "*") (b.field.getD "*"))) ≠ .gt

def strLE (a b : String) : Bool := cmpStr a b ≠ .gt

def normalizeAST (ast : AST) : AST :=
  let w := flattened ast.whereClause
  { table := ast.table
    tableAlias := ast.tableAlias
    select := ast.select.map (sortLE selectLE)
    aggregate := ast.aggregate.map (sortLE aggLE)
    whereClause := w.map sortedC
    limit := ast.limit
    groupBy := ast.groupBy.map (sortLE strLE)
    orderBy := ast.orderBy }

/-! ## LIKE / ILIKE compilation (pipeline-builder.ts:274-330)

`patternToRegExp` scans the pattern left to right and builds an anchored
regex: `%` becomes `.*`, `_` becomes `.`, `\x` emits `x` as a literal
(throwing if `\` is the final character), and any other character is
emitted as a literal (regex metacharacters are backslash-escaped in the
generated source, i.e. they match literally).  We embed the generated
anchored regex as a token list and give it its matching semantics
directly; the `i` flag (ILIKE) is modelled by case-folding both sides of
every literal comparison. -/

inductive Tok where
  | star
  | one
  | lit (c : Char)
deriving DecidableEq

/-- The scan of `patternToRegExp`; `.error` models the thrown
`Error('LIKE pattern must not end with escape character')`. -/
def patternToTokens : List Char → Except String (List Tok)
  | [] => .ok []
  | c :: rest =>
    if c = '%' then (patternToTokens rest).map (Tok.star :: ·)
    else if c = '_' then (patternToTokens rest).map (Tok.one :: ·)
    else if c = '\\' then
      match rest with
      | [] => .error "LIKE pattern must not end with escape character"
      | c2 :: rest2 => (patternToTokens rest2).map (Tok.lit c2 :: ·)
    else (patternToTokens rest).map (Tok.lit c :: ·)

/-- JS `toLowerCase` restricted to ASCII (all characters the claims use). -/
def foldCase (ci : Bool) (c : Char) : Char := if ci then c.toLower else c

/-- JS `String.prototype.toLowerCase`, character-wise. -/
def strToLower (s : String) : String := ⟨s.data.map Char.toLower⟩

def suffixes : List Char → List (List Char)
  | [] => [[]]
  | c :: s => (c :: s) :: suffixes s

/-- Anchored matching of the generated regex: the whole input must be
consumed; `.star` may absorb any number of characters. -/
def tokensMatch (ci : Bool) : List Tok → List Char → Bool
  | [], s => s.isEmpty
  | .star :: ts, s => (suffixes s).any (tokensMatch ci ts)
  | .one :: _, [] => false
  | .one :: ts, _ :: s => tokensMatch ci ts s
  | .lit _ :: _, [] => false
  | .lit c :: ts, d :: s => foldCase ci c == foldCase ci d && tokensMatch ci ts s

def hasWildcard (p : List Char) : Bool :=
  p.any fun c => c == '_' || c == '%' || c == '\\'

/-- `getLikeOp` (pipeline-builder.ts:274-290): a pattern without `%`, `_`
or `\` compiles to (case-folded, for ILIKE) string equality; otherwise to
an anchored regex test.  The `Except` layer records that pattern
compilation happens when the predicate is built, before any row is
evaluated against it. -/
def getLikeOp (pattern : String) (ci : Bool) : Except String (String → Bool) :=
  if hasWildcard pattern.data then
    (patternToTokens pattern.data).map fun ts => fun lhs => tokensMatch ci ts lhs.data
  else if ci then
    .ok fun lhs => strToLower lhs == strToLower pattern
  else
    .ok fun lhs => lhs == pattern

/-- Length of the leading run of backslashes. -/
def leadRunBS : List Char → Nat
  | '\\' :: rest => leadRunBS rest + 1
  | _ => 0

/-- A LIKE pattern ends with a dangling (unescaped) escape character iff
its trailing run of backslashes has odd length. -/
def endsWithDanglingEscape (p : String) : Bool :=
  leadRunBS p.data.reverse % 2 == 1

/-! ## JSON encoding (model of `JSON.stringify` on primitive values)

`JSON.stringify` escapes `"`, `\` and the control characters U+0000–U+001F
(with the short escapes `\b \t \n \f \r`, others as `\u00xx`); every other
character is emitted verbatim, numbers are rendered in decimal, booleans
and null by their keywords. -/

def hexChar (d : Nat) : Char :=
  if d < 10 then digitChar d else Char.ofNat (87 + d)

def escChar (c : Char) : List Char :=
  if c = '"' then ['\\', '"']
  else if c = '\\' then ['\\', '\\']
  else if c = '\x08' then ['\\', 'b']
  else if c = '\x09' then ['\\', 't']
  else if c = '\x0a' then ['\\', 'n']
  else if c = '\x0c' then ['\\', 'f']
  else if c = '\x0d' then ['\\', 'r']
  else if c.toNat < 0x20 then
    ['\\', 'u', '0', '0', hexChar (c.toNat / 16), hexChar (c.toNat % 16)]
  else [c]

def escChars : List Char → List Char
  | [] => []
  | c :: cs => escChar c ++ escChars cs

def jsonPrim : Prim → List Char
  | .s v => '"' :: escChars v.data ++ ['"']
  | .i v => intDec v
  | .b true => ['t', 'r', 'u', 'e']
  | .b false => ['f', 'a', 'l', 's', 'e']
  | .null => ['n', 'u', 'l', 'l']

def joinComma : List (List Char) → List Char
  | [] => []
  | [x] => x
  | x :: y :: xs => x ++ ',' :: joinComma (y :: xs)

def jsonArr (vs : List Prim) : List Char :=
  '[' :: joinComma (vs.map jsonPrim) ++ [']']

/-- Hex digit value (partial inverse of `hexChar`). -/
def hexVal (c : Char) : Nat :=
  if c.toNat ≤ 57 then c.toNat - 48 else c.toNat - 87

/-- Decoder for one escaped character — a partial inverse of `escChar`,
used to show that JSON string encoding is prefix-determined. -/
def escHead : List Char → Option (Char × List Char)
  | [] => none
  | c :: r =>
    if c = '\\' then
      match r with
      | [] => none
      | e :: r2 =>
        if e = '"' then some ('"', r2)
        else if e = '\\' then some ('\\', r2)
        else if e = 'b' then some ('\x08', r2)
        else if e = 't' then some ('\x09', r2)
        else if e = 'n' then some ('\x0a', r2)
        else if e = 'f' then some ('\x0c', r2)
        else if e = 'r' then some ('\x0d', r2)
        else if e = 'u' then
          match r2 with
          | '0' :: '0' :: h1 :: h2 :: r3 =>
            some (Char.ofNat (hexVal h1 * 16 + hexVal h2), r3)
          | _ => none
        else none
    else some (c, r)

/-! ## Join bookkeeping keys (join.ts:186-198) -/

/-- `createPrimaryKeySetStorageKey`: `JSON.stringify(['pKeySet', ...values])`
with the surrounding brackets stripped, plus a trailing comma. -/
def createPrimaryKeySetStorageKey (values : List Prim) : String :=
  ⟨((jsonArr (Prim.s "pKeySet" :: values)).drop 1).dropLast ++ [',']⟩

def createPrimaryKeySetStorageKeyPrefix (value : Prim) : String :=
  createPrimaryKeySetStorageKey [value]

/-! ## Rows, operator storage and the Join operator (join.ts)

`data.ts` and `operator.ts` are not under src/.  Modelled from the spec:
§3 — a Row maps column names to primitive values and `normalizeUndefined`
maps `undefined`-equivalents (an absent column) to `null`; §4.5 — operator
storage is a sorted key-value map with `set`, `del` and prefix `scan`. -/

abbrev Row : Type := List (String × Prim)

/-- JS `row[key]`: `none` models `undefined`. -/
def rowGet (r : Row) (k : String) : Option Prim :=
  (r.find? fun e => e.1 == k).map (·.2)

/-- Modelled from the spec (§3, `data.ts` missing from src/):
`normalizeUndefined` maps `undefined` to `null`. -/
def normalizeUndefined : Option Prim → Prim
  | none => .null
  | some v => v

/-- Modelled from the spec (§4.5, `operator.ts` missing from src/): operator
storage is a key-sorted association list; the Join only stores `true`. -/
abbrev Storage : Type := List (String × Bool)

def storageSet : Storage → String → Bool → Storage
  | [], k, v => [(k, v)]
  | (k', v') :: rest, k, v =>
    match cmpStr k k' with
    | .lt => (k, v) :: (k', v') :: rest
    | .eq => (k, v) :: rest
    | .gt => (k', v') :: storageSet rest k v

def storageDel (st : Storage) (k : String) : Storage :=
  st.filter fun e => ¬ e.1 = k

/-- Prefix scan, in key order (the storage is key-sorted). -/
def storageScan (st : Storage) (pfx : String) : List (String × Bool) :=
  st.filter fun e => pfx.data.isPrefixOf e.1.data

inductive Mode where
  | fetch
  | cleanup
deriving DecidableEq

structure JoinParams where
  parentKey : String
  childKey : String
  relationshipName : String
  /-- `this.#parent.getSchema().primaryKey` -/
  parentPrimaryKey : List String
deriving DecidableEq

/-- `Join.#processParentNode` (join.ts:134-181), reduced to its two effects:
the mode the child input is pulled with (`this.#child[method]({constraint})`;
we return `method` rather than the lazy stream) and the resulting operator
storage.  In `cleanup` mode the child is pulled in cleanup mode only when
the prefix scan for the parent-key value yields fewer than two entries
(`const [, second] = [...take(scan, 2)]; method = second ? 'fetch' : 'cleanup'`),
and the node's own `pKeySet` entry is deleted after the scan. -/
def processParentNode (p : JoinParams) (row : Row) (mode : Mode) (st : Storage) :
    Mode × Storage :=
  let parentKeyValue := normalizeUndefined (rowGet row p.parentKey)
  let parentPrimaryKey := p.parentPrimaryKey.map fun k => normalizeUndefined (rowGet row k)
  let storageKey := createPrimaryKeySetStorageKey (parentKeyValue :: parentPrimaryKey)
  let method : Mode :=
    match mode with
    | .cleanup =>
      match (storageScan st (createPrimaryKeySetStorageKeyPrefix parentKeyValue)).take 2 with
      | _ :: _ :: _ => .fetch
      | _ => .cleanup
    | .fetch => .fetch
  let st' :=
    match mode with
    | .fetch => storageSet st storageKey true
    | .cleanup => storageDel st storageKey
  (method, st')

/-- Differential changes (`change.ts` is not under src/; modelled from the
spec §3: `add`/`remove` carry a Node, `child` carries the parent row, a
relationship name and a nested change.  Only the rows of carried nodes are
relevant to the claims, so a Node is represented by its row here). -/
inductive Change where
  | add (row : Row)
  | remove (row : Row)
  | child (row : Row) (relationshipName : String) (change : Change)
deriving DecidableEq

/-- `change.type === 'child' ? change.row : change.node.row` -/
def Change.rowOf : Change → Row
  | .add r => r
  | .remove r => r
  | .child r _ _ => r

structure Constraint where
  key : String
  value : Option Prim
deriving DecidableEq

/-- `Join.#push`, child branch (join.ts:110-132): re-fetch matching parents
by the child row's `childKey` value and emit one wrapping `child` change
per parent returned.  The parent input is abstracted by its `fetch`
function. -/
def pushFromChild (parentFetch : Constraint → List Row) (p : JoinParams)
    (change : Change) : List Change :=
  let childRow := change.rowOf
  let parentNodes := parentFetch { key := p.parentKey, value := rowGet childRow p.childKey }
  parentNodes.map fun parentRow => Change.child parentRow p.relationshipName change

/-! ## Pipeline builder (pipeline-builder.ts)

`DifferenceStream` (difference-stream.ts) is not under src/; a stream is
modelled by the multiset of rows currently flowing through it, and the
stream operators the builder chains are modelled from the spec where their
code is missing (`reduce` §4.3.3, `distinct` §4.3.5, full-table
`count`/`sum`/`average` §4.3.4).  The accept/reject logic of the builder
itself (`buildPipeline`, `applyWhere`, `applyGroupBy`,
`applyFullTableAggregation`, `getOperator`) is embedded from the source;
thrown errors become `Except.error`. -/

/-- Values appearing in group-output rows: a primitive, JS `undefined`
(a missing column), or the array produced by the `array` aggregate. -/
inductive GVal where
  | p (v : Prim)
  | undef
  | arr (vs : List GVal)

mutual

def decEqGVal : (a b : GVal) → Decidable (a = b)
  | .p v1, .p v2 => decidable_of_iff (v1 = v2) (by simp)
  | .p _, .undef => isFalse (by simp)
  | .p _, .arr _ => isFalse (by simp)
  | .undef, .p _ => isFalse (by simp)
  | .undef, .undef => isTrue rfl
  | .undef, .arr _ => isFalse (by simp)
  | .arr _, .p _ => isFalse (by simp)
  | .arr _, .undef => isFalse (by simp)
  | .arr l1, .arr l2 =>
    have : Decidable (l1 = l2) := decEqGValList l1 l2
    decidable_of_iff (l1 = l2) (by simp)

def decEqGValList : (a b : List GVal) → Decidable (a = b)
  | [], [] => isTrue rfl
  | [], _ :: _ => isFalse (by simp)
  | _ :: _, [] => isFalse (by simp)
  | a :: as, b :: bs =>
    have : Decidable (a = b) := decEqGVal a b
    have : Decidable (as = bs) := decEqGValList as bs
    decidable_of_iff (a = b ∧ as = bs) (by simp)

end

instance : DecidableEq GVal := decEqGVal

def gvalOf : Option Prim → GVal
  | none => .undef
  | some v => .p v

/-- A group-output row (a JS object: an insertion-ordered field map). -/
abbrev GRow : Type := List (String × GVal)

/-- JS `ret[alias] = v`: overwrite in place, or append a new key. -/
def setField (r : GRow) (k : String) (v : GVal) : GRow :=
  if r.any (·.1 == k) then r.map fun e => if e.1 == k then (k, v) else e
  else r ++ [(k, v)]

def rowToGRow (r : Row) : GRow := r.map fun e => (e.1, GVal.p e.2)

/-- JS `>` on primitives.  Same-type comparisons follow JS semantics
(numeric for numbers, code-unit order for strings, boolean coercion);
mixed-type `ToNumber` coercion is not modelled — no claim depends on it —
and compares false, like a NaN comparison. -/
def jsGtP : Prim → Prim → Bool
  | .i a, .i b => a > b
  | .s a, .s b => cmpStr a b == .gt
  | .b a, .b b => a && !b
  | _, _ => false

def jsLtP : Prim → Prim → Bool
  | .i a, .i b => a < b
  | .s a, .s b => cmpStr a b == .lt
  | .b a, .b b => !a && b
  | _, _ => false

def jsGtG : GVal → GVal → Bool
  | .p a, .p b => jsGtP a b
  | _, _ => false

def jsLtG : GVal → GVal → Bool
  | .p a, .p b => jsLtP a b
  | _, _ => false

/-- JS `sum += row[field]` over the numeric rows the claims exercise
(non-numeric addends, which would poison the JS sum with `NaN` or string
concatenation, are not modelled and contribute 0). -/
def addNum (acc : Int) (v : Option Prim) : Int :=
  match v with
  | some (.i n) => acc + n
  | _ => acc

/-- One aggregation of the reducer body of `applyGroupBy`
(pipeline-builder.ts:126-185): the value stored under `ret[alias]`.
`avg` is `sum / count` in JS floating point; it is modelled with integer
division (no claim inspects an `avg` value). -/
def aggValue (agg : Aggregation) (values : List Row) : GVal :=
  let fld := agg.field.getD ""
  match agg.aggregate with
  | "count" => .p (.i values.length)
  | "sum" => .p (.i (values.foldl (fun acc r => addNum acc (rowGet r fld)) 0))
  | "avg" =>
    .p (.i ((values.foldl (fun acc r => addNum acc (rowGet r fld)) 0) / values.length))
  | "min" =>
    values.foldl
      (fun m r =>
        let newValue := gvalOf (rowGet r fld)
        if m = .undef || jsGtG m newValue then newValue else m)
      .undef
  | "max" =>
    values.foldl
      (fun m r =>
        let newValue := gvalOf (rowGet r fld)
        if m = .undef || jsLtG m newValue then newValue else m)
      .undef
  | "array" => .arr (values.map fun r => gvalOf (rowGet r fld))
  | _ => (.undef)

/-- The reducer body passed to `stream.reduce` in `applyGroupBy`
(pipeline-builder.ts:122-187): spread the first group member, then set one
output field per aggregation in order.  (The unknown-aggregate `default`
throw is unreachable for the six `Aggregate` kinds.) -/
def reduceGroupRow (aggregations : List Aggregation) (values : List Row) : GRow :=
  let first := values.headD []
  aggregations.foldl
    (fun ret agg => setField ret agg.aggAlias (aggValue agg values))
    (rowToGRow first)

/-- `makeKeyFunction` (pipeline-builder.ts:220-231): the JSON-encoded tuple
of the group columns' values, in declared order.  (`JSON.stringify` renders
an `undefined` array element as `null`; qualified `table.column` selectors
against join-result entities are not exercised by any claim and are not
modelled.) -/
def makeKeyFunction (selectors : List String) (x : Row) : String :=
  ⟨jsonArr (selectors.map fun sel => normalizeUndefined (rowGet x sel))⟩

def firstSeenAux (seen : List String) : List String → List String
  | [] => []
  | k :: rest =>
    if k ∈ seen then firstSeenAux seen rest else k :: firstSeenAux (k :: seen) rest

/-- `applyGroupBy` (pipeline-builder.ts:113-189).  The `reduce` operator
itself lives in difference-stream.ts (not under src/); modelled from the
spec §4.3.3: one output row per distinct key of the current row multiset,
computed by the reducer body over the group's members in insertion order. -/
def applyGroupBy (columns : List String) (aggregations : List Aggregation)
    (rows : List Row) : List (String × GRow) :=
  let key := makeKeyFunction columns
  (firstSeenAux [] (rows.map key)).map fun k =>
    (k, reduceGroupRow aggregations (rows.filter fun r => key r == k))

/-- JS string coercion `String(x)` of a row value (`undefined` prints as
`undefined`). -/
def jsString : Option Prim → String
  | none => "undefined"
  | some v => primToString v

/-- `getOperator` (pipeline-builder.ts:236-268) as predicate compilation
over a row value; only the LIKE family can fail, and it fails while the
predicate is being compiled.  Mixed-type relational coercion and the `IN`
operators' `rhs.includes` (not well-typed against the AST's `Primitive`
literal: it would throw only when a row is evaluated) are not modelled in
detail — no claim depends on those predicate values. -/
def getOperator (op : String) (rhs : Prim) : Except String (Option Prim → Bool) :=
  match op with
  | "=" => .ok fun lhs => lhs == some rhs
  | "!=" => .ok fun lhs => lhs != some rhs
  | "<" => .ok fun lhs => jsLtP (normalizeUndefined lhs) rhs
  | ">" => .ok fun lhs => jsGtP (normalizeUndefined lhs) rhs
  | ">=" => .ok fun lhs => !jsLtP (normalizeUndefined lhs) rhs
  | "<=" => .ok fun lhs => !jsGtP (normalizeUndefined lhs) rhs
  | "IN" => .ok fun _ => false
  | "NOT IN" => .ok fun _ => true
  | "LIKE" => (getLikeOp (primToString rhs) false).map fun f lhs => f (jsString lhs)
  | "NOT LIKE" => (getLikeOp (primToString rhs) false).map fun f lhs => !f (jsString lhs)
  | "ILIKE" => (getLikeOp (primToString rhs) true).map fun f lhs => f (jsString lhs)
  | "NOT ILIKE" => (getLikeOp (primToString rhs) true).map fun f lhs => !f (jsString lhs)
  | _ => .error ("Operator " ++ op ++ " not supported")

/-- `Distinct` after an OR fan-in.  difference-stream.ts is not under src/;
modelled from the spec §4.3.5: deduplicate by the primary key column,
keeping first occurrences. -/
def distinctByIdAux (seen : List (Option Prim)) : List Row → List Row
  | [] => []
  | r :: rest =>
    let k := rowGet r "id"
    if k ∈ seen then distinctByIdAux seen rest
    else r :: distinctByIdAux (k :: seen) rest

def distinctById (rows : List Row) : List Row := distinctByIdAux [] rows

mutual

/-- `applyWhere` / `applyAnd` / `applyOr` / `applySimpleCondition`
(pipeline-builder.ts:45-111) over the current row multiset: AND composes
filters sequentially, OR applies each branch to the incoming stream,
concatenates and deduplicates. -/
def applyWhere (rows : List Row) : Cond → Except String (List Row)
  | .simple op f v =>
    (getOperator op v).map fun pred => rows.filter fun x => pred (rowGet x f)
  | .conj .and cs => applyAnd rows cs
  | .conj .or cs => (applyOrBranches rows cs).map distinctById

def applyAnd (rows : List Row) : List Cond → Except String (List Row)
  | [] => .ok rows
  | c :: rest => do applyAnd (← applyWhere rows c) rest

def applyOrBranches (rows : List Row) : List Cond → Except String (List Row)
  | [] => .ok []
  | c :: rest => do pure ((← applyWhere rows c) ++ (← applyOrBranches rows rest))

end

/-- `applyFullTableAggregation` (pipeline-builder.ts:191-218): `array`,
`min` and `max` are rejected with a thrown error; `avg`, `count` and `sum`
chain stream aggregation operators (difference-stream.ts, not under src/;
modelled from the spec §4.3.4 as producing the aggregate value per alias). -/
def applyFullTableAggregation (aggregations : List Aggregation) (rows : List Row) :
    Except String (List (String × GVal)) :=
  aggregations.foldlM
    (fun ret agg =>
      if agg.aggregate = "array" ∨ agg.aggregate = "min" ∨ agg.aggregate = "max" then
        .error (agg.aggregate ++ " not yet supported outside of group-by")
      else if agg.aggregate = "avg" then .ok (ret ++ [(agg.aggAlias, aggValue agg rows)])
      else if agg.aggregate = "count" then .ok (ret ++ [(agg.aggAlias, aggValue agg rows)])
      else if agg.aggregate = "sum" then .ok (ret ++ [(agg.aggAlias, aggValue agg rows)])
      else .ok ret)
    []

inductive PipelineOut where
  | rows (rs : List Row)
  | grouped (gs : List (String × GRow))
  | fullAgg (r : List (String × GVal))
deriving DecidableEq

/-- `buildPipeline` (pipeline-builder.ts:7-43): obtain the source stream,
wrap with the where filters, then group-by (which also applies the
aggregations) or, failing a `groupBy`, full-table aggregation. -/
def buildPipeline (source : List Row) (ast : AST) : Except String PipelineOut :=
  (match ast.whereClause with
    | some w => applyWhere source w
    | none => .ok source).bind fun stream =>
  match ast.groupBy with
  | some cols => .ok (.grouped (applyGroupBy cols (ast.aggregate.getD []) stream))
  | none =>
    match ast.aggregate with
    | some aggs => (applyFullTableAggregation aggs stream).map .fullAgg
    | none => .ok (.rows stream)

/-! ## Permutation-equivalence of condition trees

`PermEq c₁ c₂` says the two condition trees differ only in the order of
the conditions inside their conjunctions (`PermEqList` is `List.Perm` up
to `PermEq` on elements).  This formalizes "ASTs that differ only in
WHERE-clause commutativity". -/

mutual

inductive PermEq : Cond → Cond → Prop where
  | simple (op f v) : PermEq (.simple op f v) (.simple op f v)
  | conj (op) {cs₁ cs₂ : List Cond} :
      PermEqList cs₁ cs₂ → PermEq (.conj op cs₁) (.conj op cs₂)

inductive PermEqList : List Cond → List Cond → Prop where
  | nil : PermEqList [] []
  | cons {a b l₁ l₂} : PermEq a b → PermEqList l₁ l₂ → PermEqList (a :: l₁) (b :: l₂)
  | swap {a a' b b' l₁ l₂} : PermEq a a' → PermEq b b' → PermEqList l₁ l₂ →
      PermEqList (a :: b :: l₁) (b' :: a' :: l₂)
  | trans {l₁ l₂ l₃} : PermEqList l₁ l₂ → PermEqList l₂ l₃ → PermEqList l₁ l₃

end

def PermEqO : Option Cond → Option Cond → Prop
  | none, none => True
  | some a, some b => PermEq a b
  | _, _ => False

def PermO : Option (List α) → Option (List α) → Prop
  | none, none => True
  | some a, some b => a.Perm b
  | _, _ => False

/-- No two distinct members of `l` compare equal under the normalization
comparator (the comparator has ties between distinct conditions, e.g.
literals `1` and `"1"` on the same field stringify identically, and JS's
stable sort preserves the input order of such ties). -/
def NoTies (l : List Cond) : Prop :=
  ∀ a ∈ l, ∀ b ∈ l, cmpCond a b = .eq → a = b

mutual

def TieFree : Cond → Prop
  | .simple _ _ _ => True
  | .conj _ cs => TieFreeList cs ∧ NoTies (sortedList cs)

def TieFreeList : List Cond → Prop
  | [] => True
  | c :: rest => TieFree c ∧ TieFreeList rest

end

def TieFreeO : Option Cond → Prop
  | none => True
  | some c => TieFree c

/-- Select entries with equal selectors are equal (the select comparator
orders by selector only, so the stable sort preserves the input order of
entries sharing a selector). -/
def DistinctSelectors : Option (List (String × String)) → Prop
  | none => True
  | some l => ∀ p ∈ l, ∀ q ∈ l, p.1 = q.1 → p = q

/-! ## Concrete instances used by the scenario properties -/

def astWithWhere (w : Option Cond) : AST :=
  { table := "issue", tableAlias := none, select := none, aggregate := none,
    whereClause := w, limit := none, groupBy := none, orderBy := (["id"], "asc") }

def condA1 : Cond := .simple "=" "a" (.i 1)
def condB1 : Cond := .simple "=" "b" (.i 1)
def condC1s : Cond := .simple "=" "c" (.i 1)
def condD1 : Cond := .simple "=" "d" (.i 1)
def condB2 : Cond := .simple "=" "b" (.i 2)

/-- `WHERE ((a=1 AND b=1) AND c=1) AND d=1`: a same-operator conjunction
nested three deep. -/
def astDeepNest : AST :=
  astWithWhere (some (.conj .and
    [.conj .and [.conj .and [condA1, condB1], condC1s], condD1]))

def hasDirectSameOpChild : Cond → Bool
  | .simple _ _ _ => false
  | .conj op cs =>
    cs.any fun c =>
      match c with
      | .conj op2 _ => op2 == op
      | _ => false

def rowI1 : Row := [("id", .s "i1"), ("uid", .s "u1")]
def rowI2 : Row := [("id", .s "i2"), ("uid", .s "u1")]
def rowC1 : Row := [("id", .s "c1"), ("uid", .s "u1")]

def joinParams : JoinParams :=
  { parentKey := "uid", childKey := "uid", relationshipName := "comments",
    parentPrimaryKey := ["id"] }

/-- Storage after the two parents sharing `uid:"u1"` have been fetched. -/
def stBoth : Storage :=
  (processParentNode joinParams rowI2 .fetch
    (processParentNode joinParams rowI1 .fetch []).2).2

def twoParentFetch : Constraint → List Row := fun c =>
  if c = { key := "uid", value := some (.s "u1") } then [rowI1, rowI2] else []

def countAgg : Aggregation := { field := none, aggAlias := "count", aggregate := "count" }
def sumVAgg : Aggregation := { field := some "v", aggAlias := "sum", aggregate := "sum" }

def minVAgg : Aggregation := { field := some "v", aggAlias := "min", aggregate := "min" }

def astAgg (aggs : List Aggregation) (gb : Option (List String)) (w : Option Cond) : AST :=
  { table := "issue", tableAlias := none, select := none, aggregate := some aggs,
    whereClause := w, limit := none, groupBy := gb, orderBy := (["id"], "asc") }

/-- An AST whose aggregations are all supported in full-table position, but
whose WHERE clause fails to compile (LIKE pattern with dangling escape). -/
def astBadWhereCount : AST :=
  astAgg [countAgg] none (some (.simple "LIKE" "title" (.s "\\")))

def rowGA1 : Row := [("g", .s "a"), ("v", .i 1)]
def rowGA2 : Row := [("g", .s "a"), ("v", .i 2)]
def rowGB5 : Row := [("g", .s "b"), ("v", .i 5)]

/-- `WHERE a=1 AND (b=1 AND (c=1 AND d=1))`: the right-nested associativity
variant of `astDeepNest`. -/
def astDeepNestR : AST :=
  astWithWhere (some (.conj .and
    [condA1, .conj .and [condB1, .conj .and [condC1s, condD1]]]))

/-- Conditions on the same field whose literals `1` and `"1"` stringify
identically: a comparator tie between distinct conditions. -/
def condTieI : Cond := .simple "=" "f" (.i 1)

def condTieS : Cond := .simple "=" "f" (.s "1")

def astC3A : AST :=
  { table := "issue", tableAlias := none,
    select := some [("s1", "x"), ("s2", "y")], aggregate := none,
    whereClause := some (.conj .and [condA1, condB2]),
    limit := none, groupBy := some ["g", "h"], orderBy := (["id"], "asc") }

/-- `astC3A` with the WHERE conjuncts, the select entries and the groupBy
columns each listed in the opposite order. -/
def astC3B : AST :=
  { table := "issue", tableAlias := none,
    select := some [("s2", "y"), ("s1", "x")], aggregate := none,
    whereClause := some (.conj .and [condB2, condA1]),
    limit := none, groupBy := some ["h", "g"], orderBy := (["id"], "asc") }

/-! ## Claim C1 -/

/-- C1: the claim states `normalizeAST` is idempotent
(`normalize(normalize(A)) = normalize(A)` for every AST).  The code
violates it: `flattened` inlines a same-operator child conjunction but
does not re-inline a same-operator grandchild that its inlining promotes
to direct-child position, so for
`WHERE ((a=1 AND b=1) AND c=1) AND d=1` the first normalization leaves the
nested `(a=1 AND b=1)` in place and a second normalization flattens it —
contradicting both the spec and `flattened`'s own documentation
("nested Conjunctions with the same operation ... are flattened to the
same level"). -/
theorem normalizeAST_not_idempotent_at_deep_nest :
    normalizeAST (normalizeAST astDeepNest) ≠ normalizeAST astDeepNest ∧
    (normalizeAST astDeepNest).whereClause =
      some (.conj .and [condC1s, condD1, .conj .and [condA1, condB1]]) ∧
    (normalizeAST (normalizeAST astDeepNest)).whereClause =
      some (.conj .and [condA1, condB1, condC1s, condD1]) := by
  refine ⟨by decide, by decide, by decide⟩

/-! ## Claim C2 -/

/-- C2: the claim states that a normalized `where` is fully flattened — no
Conjunction in it has a direct child Conjunction with the same operator.
The code violates this for same-operator conjunctions nested three deep
(same `flattened` bug as C1): normalizing `astDeepNest` leaves the AND
child `(a=1 AND b=1)` directly under the top-level AND.  The claim's other
parts do hold on the code, e.g. the spec's scenario
`WHERE (a=1 AND (b=2 AND TRUE))` (TRUE being the empty conjunction)
normalizes identically to `WHERE a=1 AND b=2`. -/
theorem normalized_where_keeps_same_op_child :
    (normalizeAST astDeepNest).whereClause =
      some (.conj .and [condC1s, condD1, .conj .and [condA1, condB1]]) ∧
    hasDirectSameOpChild (.conj .and [condC1s, condD1, .conj .and [condA1, condB1]]) = true ∧
    normalizeAST (astWithWhere (some (.conj .and [condA1, .conj .and [condB2, .conj .and []]]))) =
      normalizeAST (astWithWhere (some (.conj .and [condA1, condB2]))) := by
  refine ⟨by decide, by decide, by decide⟩

/-! ## Claim C4 -/

/-- C4: during cleanup the child is pulled in cleanup mode iff the prefix
scan under `pKeySet,<parentKeyValue>,` finds fewer than two entries, and
the node's own `pKeySet` entry is removed; consequently, with two parents
sharing `uid:"u1"`, cleaning up the first pulls the child in fetch mode
(the shared subtree survives) and cleaning up the second pulls it in
cleanup mode. -/
theorem join_cleanup_spares_shared_child :
    (∀ (p : JoinParams) (row : Row) (st : Storage),
      ((processParentNode p row .cleanup st).1 = .fetch ↔
        2 ≤ (storageScan st (createPrimaryKeySetStorageKeyPrefix
              (normalizeUndefined (rowGet row p.parentKey)))).length) ∧
      (processParentNode p row .cleanup st).2 =
        storageDel st (createPrimaryKeySetStorageKey
          (normalizeUndefined (rowGet row p.parentKey) ::
            p.parentPrimaryKey.map fun k => normalizeUndefined (rowGet row k)))) ∧
    (processParentNode joinParams rowI1 .cleanup stBoth).1 = .fetch ∧
    (processParentNode joinParams rowI2 .cleanup
        (processParentNode joinParams rowI1 .cleanup stBoth).2).1 = .cleanup ∧
    (processParentNode joinParams rowI2 .cleanup
        (processParentNode joinParams rowI1 .cleanup stBoth).2).2 = [] := by
  refine ⟨fun p row st => ?_, by decide, by decide, by decide⟩
  constructor
  · show (processParentNode p row .cleanup st).1 = .fetch ↔ _
    unfold processParentNode
    rcases h : (storageScan st (createPrimaryKeySetStorageKeyPrefix
        (normalizeUndefined (rowGet row p.parentKey)))) with _ | ⟨x, _ | ⟨y, l⟩⟩ <;>
      simp [h, List.take]
  · rfl

/-! ## Claim C5 -/

/-- C5: a change pushed from the child input makes the Join fetch the
parent input with constraint `{key: parentKey, value: childRow[childKey]}`
and emit exactly one wrapping `child` change per parent node returned; in
the spec's scenario with two parents sharing `uid:"u1"`, inserting the
child `{id:"c1",uid:"u1"}` emits two `child` changes, one rooted at each
parent row. -/
theorem join_child_push_fans_out :
    (∀ (pf : Constraint → List Row) (p : JoinParams) (ch : Change),
      pushFromChild pf p ch =
        (pf { key := p.parentKey, value := rowGet ch.rowOf p.childKey }).map
          fun r => .child r p.relationshipName ch) ∧
    pushFromChild twoParentFetch joinParams (.add rowC1) =
      [.child rowI1 "comments" (.add rowC1), .child rowI2 "comments" (.add rowC1)] := by
  exact ⟨fun pf p ch => rfl, by decide⟩

/-! ## Claim C9 -/

/-- C9 (counterexample): the claim lists the group rows as exactly
`{g:"a",count:2,sum:3}` and `{g:"b",count:1,sum:5}`, but the reducer
spreads the *whole* first group member into the output row
(`ret = {...first}`), so the actual `a` row also carries `v:1`. -/
theorem groupBy_rows_not_as_claimed :
    (applyGroupBy ["g"] [countAgg, sumVAgg] [rowGA1, rowGA2, rowGB5]).map (·.2) ≠
      [[("g", .p (.s "a")), ("count", .p (.i 2)), ("sum", .p (.i 3))],
       [("g", .p (.s "b")), ("count", .p (.i 1)), ("sum", .p (.i 5))]] ∧
    ("v", GVal.p (.i 1)) ∈
      ((applyGroupBy ["g"] [countAgg, sumVAgg] [rowGA1, rowGA2, rowGB5]).map (·.2)).headD [] := by
  refine ⟨by decide, by decide⟩

/-- C9 (amended): the three inputs produce exactly two groups, keyed by
the JSON-encoded tuple of the group-column values, each row being the
first group member merged with the aggregate aliases (hence including the
first member's `v`); removing `{g:"a",v:1}` updates the `a` group to
`count:1, sum:2` (with `v:2`, the new first member). -/
theorem groupBy_count_sum :
    applyGroupBy ["g"] [countAgg, sumVAgg] [rowGA1, rowGA2, rowGB5] =
      [("[\"a\"]", [("g", .p (.s "a")), ("v", .p (.i 1)),
                    ("count", .p (.i 2)), ("sum", .p (.i 3))]),
       ("[\"b\"]", [("g", .p (.s "b")), ("v", .p (.i 5)),
                    ("count", .p (.i 1)), ("sum", .p (.i 5))])] ∧
    applyGroupBy ["g"] [countAgg, sumVAgg] [rowGA2, rowGB5] =
      [("[\"a\"]", [("g", .p (.s "a")), ("v", .p (.i 2)),
                    ("count", .p (.i 1)), ("sum", .p (.i 2))]),
       ("[\"b\"]", [("g", .p (.s "b")), ("v", .p (.i 5)),
                    ("count", .p (.i 1)), ("sum", .p (.i 5))])] := by
  refine ⟨by decide, by decide⟩

/-! ## Lemmas about LIKE compilation -/

theorem isOk_map {e : Except ε α} {f : α → β} : (e.map f).isOk = e.isOk := by
  cases e <;> rfl

theorem tokensMatch_lits (cs : List Char) :
    ∀ s : List Char, tokensMatch false (cs.map Tok.lit) s = true ↔ s = cs := by
  induction cs with
  | nil => intro s; cases s <;> simp [tokensMatch, List.isEmpty]
  | cons c cs ih =>
    intro s
    cases s with
    | nil => simp [tokensMatch]
    | cons d s =>
      show (c == d && tokensMatch false (cs.map Tok.lit) s) = true ↔ d :: s = c :: cs
      simp only [Bool.and_eq_true, beq_iff_eq, ih s, List.cons.injEq]
      constructor
      · rintro ⟨h1, h2⟩
        exact ⟨h1.symm, h2⟩
      · rintro ⟨h1, h2⟩
        exact ⟨h1.symm, h2⟩

theorem leadRunBS_cons (x : Char) (l : List Char) :
    leadRunBS (x :: l) = if x = '\\' then leadRunBS l + 1 else 0 := by
  by_cases hx : x = '\\'
  · subst hx; simp [leadRunBS]
  · simp [hx]
    conv_lhs => unfold leadRunBS
    split
    · simp_all
    · rfl

theorem leadRunBS_append (xs : List Char) (c : Char) :
    leadRunBS (xs ++ [c]) =
      if c = '\\' ∧ xs.all (· = '\\') then xs.length + 1 else leadRunBS xs := by
  induction xs with
  | nil => simp [leadRunBS_cons, leadRunBS]
  | cons x xs ih =>
    by_cases hx : x = '\\'
    · subst hx
      simp only [List.cons_append, leadRunBS_cons, if_pos rfl, ih, List.all_cons,
        List.length_cons]
      by_cases hc : c = '\\' <;> by_cases ha : xs.all (· = '\\') <;> simp [hc, ha]
    · simp [List.cons_append, leadRunBS_cons, hx, List.all_cons]

theorem patternToTokens_cons (c : Char) (rest : List Char) :
    patternToTokens (c :: rest) =
      if c = '%' then (patternToTokens rest).map (Tok.star :: ·)
      else if c = '_' then (patternToTokens rest).map (Tok.one :: ·)
      else if c = '\\' then
        match rest with
        | [] => .error "LIKE pattern must not end with escape character"
        | c2 :: rest2 => (patternToTokens rest2).map (Tok.lit c2 :: ·)
      else (patternToTokens rest).map (Tok.lit c :: ·) := by
  rw [patternToTokens.eq_def]

theorem patternToTokens_pct (rest : List Char) :
    patternToTokens ('%' :: rest) = (patternToTokens rest).map (Tok.star :: ·) := by
  rw [patternToTokens_cons, if_pos rfl]

theorem patternToTokens_usc (rest : List Char) :
    patternToTokens ('_' :: rest) = (patternToTokens rest).map (Tok.one :: ·) := by
  rw [patternToTokens_cons, if_neg (by decide), if_pos rfl]

theorem patternToTokens_esc (c : Char) (rest : List Char) :
    patternToTokens ('\\' :: c :: rest) = (patternToTokens rest).map (Tok.lit c :: ·) := by
  rw [patternToTokens_cons, if_neg (by decide), if_neg (by decide), if_pos rfl]

theorem patternToTokens_other (c : Char) (rest : List Char) (h1 : ¬c = '%')
    (h2 : ¬c = '_') (h3 : ¬c = '\\') :
    patternToTokens (c :: rest) = (patternToTokens rest).map (Tok.lit c :: ·) := by
  rw [patternToTokens_cons, if_neg h1, if_neg h2, if_neg h3]

theorem patternToTokens_allBS (l : List Char) (h : l.all (· = '\\') = true) :
    (patternToTokens l).isOk = (l.length % 2 == 0) := by
  induction l using patternToTokens.induct with
  | case1 => rfl
  | case2 rest _ => simp at h
  | case3 rest _ _ => simp at h
  | case4 _ _ => rfl
  | case5 c rest _ _ ih =>
    simp only [List.all_cons, Bool.and_eq_true, decide_eq_true_eq] at h
    rw [patternToTokens_esc, isOk_map, ih h.2.2]
    simp only [List.length_cons]
    rw [show rest.length + 1 + 1 = rest.length + 2 from rfl, Nat.add_mod_right]
  | case6 c rest _ _ h3 _ =>
    simp only [List.all_cons, Bool.and_eq_true, decide_eq_true_eq] at h
    exact absurd h.1 h3

theorem patternToTokens_isOk (l : List Char) :
    (patternToTokens l).isOk = !(leadRunBS l.reverse % 2 == 1) := by
  induction l using patternToTokens.induct with
  | case1 => rfl
  | case2 rest ih =>
    rw [patternToTokens_pct, isOk_map, List.reverse_cons, leadRunBS_append,
      if_neg (by simp), ih]
  | case3 rest _ ih =>
    rw [patternToTokens_usc, isOk_map, List.reverse_cons, leadRunBS_append,
      if_neg (by simp), ih]
  | case4 _ _ => rfl
  | case5 c rest _ _ ih =>
    rw [patternToTokens_esc, isOk_map]
    have hrev : ('\\' :: c :: rest).reverse = (rest.reverse ++ [c]) ++ ['\\'] := by simp
    rw [hrev, leadRunBS_append]
    by_cases hc : c = '\\'
    · by_cases ha : rest.all (· = '\\') = true
      · have ha' : rest.reverse.all (· = '\\') = true := by
          rw [List.all_reverse]
          exact ha
        rw [if_pos (by simp [hc, ha', List.all_append]), patternToTokens_allBS rest ha]
        have hlen2 : (rest.reverse ++ [c]).length + 1 = rest.length + 2 := by simp
        rw [hlen2, Nat.add_mod_right]
        cases Nat.mod_two_eq_zero_or_one rest.length with
        | inl h0 => rw [h0]; rfl
        | inr h1 => rw [h1]; rfl
      · have ha' : rest.reverse.all (· = '\\') = false := by
          rw [List.all_reverse]
          exact Bool.eq_false_iff.mpr ha
        rw [if_neg (by simp [List.all_append, ha']), leadRunBS_append,
          if_neg (by simp [ha']), ih]
    · rw [if_neg (by simp [List.all_append, hc]), leadRunBS_append,
        if_neg (by simp [hc]), ih]
  | case6 c rest h1 h2 h3 ih =>
    rw [patternToTokens_other c rest h1 h2 h3, isOk_map, List.reverse_cons,
      leadRunBS_append, if_neg (by simp [h3]), ih]

theorem leadRunBS_eq_zero (l : List Char) (h : '\\' ∉ l) : leadRunBS l = 0 := by
  cases l with
  | nil => rfl
  | cons x xs =>
    rw [leadRunBS_cons, if_neg]
    intro hx
    exact h (hx ▸ List.mem_cons_self x xs)

theorem no_wildcard_no_dangling (p : String) (h : hasWildcard p.data = false) :
    endsWithDanglingEscape p = false := by
  have hbs : '\\' ∉ p.data := by
    intro hm
    have ht : hasWildcard p.data = true := by
      unfold hasWildcard
      exact List.any_eq_true.mpr ⟨'\\', hm, by simp⟩
    rw [h] at ht
    exact Bool.false_ne_true ht
  rw [endsWithDanglingEscape, leadRunBS_eq_zero _ (by simpa using hbs)]
  rfl

/-! ## Claim C7 -/

/-- C7: compiling a LIKE/ILIKE (or negated, which reuses the same
compilation) predicate fails iff the pattern ends with a dangling
(unescaped) escape character, i.e. its trailing backslash run has odd
length; the failure is an `Except.error` produced while the predicate is
being compiled (the returned row predicate is only built in the `.ok`
case), before any row is evaluated. -/
theorem like_compile_error_iff_dangling_escape :
    ∀ (p : String) (ci : Bool), (getLikeOp p ci).isOk = !endsWithDanglingEscape p := by
  intro p ci
  unfold getLikeOp
  by_cases hw : hasWildcard p.data = true
  · rw [if_pos hw, isOk_map, patternToTokens_isOk]
    rfl
  · rw [if_neg hw, no_wildcard_no_dangling p (by simpa using hw)]
    cases ci <;> rfl

/-! ## Claim C6 -/

/-- C6: the compiled LIKE predicate is anchored: `foo\%bar` (escaped `%`)
matches exactly the literal string `foo%bar`; `f_o%` matches `fXo` and
`foobar` but not `fo` (`_` is exactly one character, `%` any number); and
a pattern without `%`, `_` or `\` degrades to string equality, case-folded
for ILIKE. -/
theorem like_pattern_matching :
    (∃ f, getLikeOp "foo\\%bar" false = .ok f ∧
      ∀ s : String, f s = true ↔ s = "foo%bar") ∧
    (∃ f, getLikeOp "f_o%" false = .ok f ∧
      f "fXo" = true ∧ f "foobar" = true ∧ f "fo" = false) ∧
    (∀ p : String, hasWildcard p.data = false →
      getLikeOp p false = .ok (fun lhs => lhs == p) ∧
      getLikeOp p true = .ok (fun lhs => strToLower lhs == strToLower p)) := by
  refine ⟨⟨fun lhs => tokensMatch false ("foo%bar".data.map Tok.lit) lhs.data, rfl, ?_⟩,
    ⟨_, rfl, by decide, by decide, by decide⟩, ?_⟩
  · intro s
    rw [tokensMatch_lits]
    constructor
    · intro h
      apply String.ext
      exact h
    · intro h
      rw [h]
  · intro p h
    constructor <;> simp [getLikeOp, h]

/-- Witness for the hypotheses of `like_pattern_matching`: the
wildcard-free pattern `abc` compiles to plain string equality. -/
theorem like_pattern_matching_witness :
    hasWildcard "abc".data = false ∧
    getLikeOp "abc" false = .ok (fun lhs => lhs == "abc") :=
  ⟨by decide, (like_pattern_matching.2.2 "abc" (by decide)).1⟩

/-! ## Claim C8 -/

theorem applyFullTableAggregation_isOk (rows : List Row) (aggs : List Aggregation) :
    (applyFullTableAggregation aggs rows).isOk =
      !(aggs.any fun a =>
        a.aggregate == "array" || a.aggregate == "min" || a.aggregate == "max") := by
  unfold applyFullTableAggregation
  suffices h : ∀ init : List (String × GVal),
      (aggs.foldlM
        (fun ret agg =>
          if agg.aggregate = "array" ∨ agg.aggregate = "min" ∨ agg.aggregate = "max" then
            Except.error (α := List (String × GVal))
              (agg.aggregate ++ " not yet supported outside of group-by")
          else if agg.aggregate = "avg" then .ok (ret ++ [(agg.aggAlias, aggValue agg rows)])
          else if agg.aggregate = "count" then .ok (ret ++ [(agg.aggAlias, aggValue agg rows)])
          else if agg.aggregate = "sum" then .ok (ret ++ [(agg.aggAlias, aggValue agg rows)])
          else .ok ret)
        init).isOk =
      !(aggs.any fun a =>
        a.aggregate == "array" || a.aggregate == "min" || a.aggregate == "max") by
    exact h []
  induction aggs with
  | nil => intro init; rfl
  | cons a rest ih =>
    intro init
    rw [List.foldlM_cons, List.any_cons]
    by_cases hbad : a.aggregate = "array" ∨ a.aggregate = "min" ∨ a.aggregate = "max"
    · rw [if_pos hbad]
      have : (a.aggregate == "array" || a.aggregate == "min" || a.aggregate == "max") = true := by
        rcases hbad with h | h | h <;> simp [h]
      rw [this]
      rfl
    · rw [if_neg hbad]
      have hb : (a.aggregate == "array" || a.aggregate == "min" || a.aggregate == "max") = false := by
        push_neg at hbad
        simp [hbad.1, hbad.2.1, hbad.2.2]
      rw [hb, Bool.false_or]
      by_cases h1 : a.aggregate = "avg"
      · rw [if_pos h1]; exact ih _
      · rw [if_neg h1]
        by_cases h2 : a.aggregate = "count"
        · rw [if_pos h2]; exact ih _
        · rw [if_neg h2]
          by_cases h3 : a.aggregate = "sum"
          · rw [if_pos h3]; exact ih _
          · rw [if_neg h3]; exact ih _

/-- C8 (counterexample): the claim says that with aggregations present and
no `groupBy`, `buildPipeline` succeeds whenever every aggregation is
`count`, `sum` or `avg`.  As stated over every AST this is false: the
builder compiles the `where` clause first, so an AST whose only
aggregation is `count` still fails to build when its `where` clause does
not compile (here a LIKE pattern ending in a dangling escape). -/
theorem buildPipeline_rejects_good_aggs_on_bad_where :
    astBadWhereCount.aggregate = some [countAgg] ∧
    countAgg.aggregate = "count" ∧
    astBadWhereCount.groupBy = none ∧
    (buildPipeline [] astBadWhereCount).isOk = false := by
  refine ⟨rfl, rfl, rfl, by decide⟩

/-- C8 (amended): provided the `where` clause (if any) compiles, an AST
with aggregations and no `groupBy` builds successfully iff no aggregation
kind is `min`, `max` or `array` (those three throw at pipeline-build
time), and an AST with a `groupBy` always builds — all six aggregate kinds
are accepted there. -/
theorem buildPipeline_aggregate_acceptance :
    (∀ (src : List Row) (ast : AST) (aggs : List Aggregation) (rows : List Row),
      ast.aggregate = some aggs → ast.groupBy = none →
      (match ast.whereClause with
        | some w => applyWhere src w
        | none => Except.ok src) = .ok rows →
      (buildPipeline src ast).isOk =
        !(aggs.any fun a =>
          a.aggregate == "array" || a.aggregate == "min" || a.aggregate == "max")) ∧
    (∀ (src : List Row) (ast : AST) (cols : List String) (rows : List Row),
      ast.groupBy = some cols →
      (match ast.whereClause with
        | some w => applyWhere src w
        | none => Except.ok src) = .ok rows →
      (buildPipeline src ast).isOk = true) := by
  constructor
  · intro src ast aggs rows hagg hgb hw
    unfold buildPipeline
    rw [hw]
    show ((match ast.groupBy with
      | some cols => Except.ok (.grouped (applyGroupBy cols (ast.aggregate.getD []) rows))
      | none => match ast.aggregate with
        | some aggs => (applyFullTableAggregation aggs rows).map .fullAgg
        | none => Except.ok (.rows rows)) : Except String PipelineOut).isOk = _
    rw [hgb, hagg]
    show ((applyFullTableAggregation aggs rows).map PipelineOut.fullAgg).isOk = _
    rw [isOk_map, applyFullTableAggregation_isOk]
  · intro src ast cols rows hgb hw
    unfold buildPipeline
    rw [hw]
    show ((match ast.groupBy with
      | some cols => Except.ok (.grouped (applyGroupBy cols (ast.aggregate.getD []) rows))
      | none => match ast.aggregate with
        | some aggs => (applyFullTableAggregation aggs rows).map .fullAgg
        | none => Except.ok (.rows rows)) : Except String PipelineOut).isOk = _
    rw [hgb]
    rfl

/-- Witness for `buildPipeline_aggregate_acceptance`: a `count`-only AST
without `groupBy` builds, a `min` AST without `groupBy` fails, and a `min`
AST with `groupBy` builds. -/
theorem buildPipeline_aggregate_acceptance_witness :
    (buildPipeline [] (astAgg [countAgg] none none)).isOk = true ∧
    (buildPipeline [] (astAgg [minVAgg] none none)).isOk = false ∧
    (buildPipeline [] (astAgg [minVAgg] (some ["g"]) none)).isOk = true := by
  refine ⟨?_, ?_, ?_⟩
  · rw [buildPipeline_aggregate_acceptance.1 [] _ [countAgg] [] rfl rfl rfl]
    decide
  · rw [buildPipeline_aggregate_acceptance.1 [] _ [minVAgg] [] rfl rfl rfl]
    decide
  · exact buildPipeline_aggregate_acceptance.2 [] _ ["g"] [] rfl rfl

/-! ## Lemmas about JSON encoding (for claim C10) -/

theorem toNat_ofNat_small : ∀ n : Nat, n < 128 → (Char.ofNat n).toNat = n := by
  decide

theorem hexVal_hexChar : ∀ d : Nat, d < 16 → hexVal (hexChar d) = d := by
  decide

theorem escChar_escHead (c : Char) (r : List Char) :
    escHead (escChar c ++ r) = some (c, r) := by
  unfold escChar
  by_cases h1 : c = '"'
  · rw [if_pos h1, h1]; rfl
  rw [if_neg h1]
  by_cases h2 : c = '\\'
  · rw [if_pos h2, h2]; rfl
  rw [if_neg h2]
  by_cases h3 : c = '\x08'
  · rw [if_pos h3, h3]; rfl
  rw [if_neg h3]
  by_cases h4 : c = '\x09'
  · rw [if_pos h4, h4]; rfl
  rw [if_neg h4]
  by_cases h5 : c = '\x0a'
  · rw [if_pos h5, h5]; rfl
  rw [if_neg h5]
  by_cases h6 : c = '\x0c'
  · rw [if_pos h6, h6]; rfl
  rw [if_neg h6]
  by_cases h7 : c = '\x0d'
  · rw [if_pos h7, h7]; rfl
  rw [if_neg h7]
  by_cases h8 : c.toNat < 0x20
  · rw [if_pos h8]
    show escHead ('\\' :: 'u' :: '0' :: '0' :: hexChar (c.toNat / 16) :: hexChar (c.toNat % 16) :: r) = _
    have hdiv : c.toNat / 16 < 16 := by omega
    have hmod : c.toNat % 16 < 16 := Nat.mod_lt _ (by omega)
    show some (Char.ofNat (hexVal (hexChar (c.toNat / 16)) * 16 + hexVal (hexChar (c.toNat % 16))), r) = _
    rw [hexVal_hexChar _ hdiv, hexVal_hexChar _ hmod]
    have : c.toNat / 16 * 16 + c.toNat % 16 = c.toNat := by omega
    rw [this, Char.ofNat_toNat]
  · rw [if_neg h8]
    show escHead (c :: r) = _
    exact if_neg h2

theorem escChar_ne_nil (c : Char) : escChar c ≠ [] := by
  unfold escChar
  repeat' split
  all_goals simp

/-- The first character of an escaped-character encoding is never a raw
quote: an escape sequence starts with a backslash, and a plain character
is only emitted when it is not `"`. -/
theorem escChar_head_ne_quote (c : Char) :
    ∀ h t, escChar c = h :: t → h ≠ '"' := by
  intro h t heq
  unfold escChar at heq
  by_cases h1 : c = '"'
  · rw [if_pos h1] at heq
    injection heq with hh _
    rw [← hh]
    decide
  rw [if_neg h1] at heq
  by_cases h2 : c = '\\'
  · rw [if_pos h2] at heq
    injection heq with hh _
    rw [← hh]
    decide
  rw [if_neg h2] at heq
  by_cases h3 : c = '\x08'
  · rw [if_pos h3] at heq; injection heq with hh _; rw [← hh]; decide
  rw [if_neg h3] at heq
  by_cases h4 : c = '\x09'
  · rw [if_pos h4] at heq; injection heq with hh _; rw [← hh]; decide
  rw [if_neg h4] at heq
  by_cases h5 : c = '\x0a'
  · rw [if_pos h5] at heq; injection heq with hh _; rw [← hh]; decide
  rw [if_neg h5] at heq
  by_cases h6 : c = '\x0c'
  · rw [if_pos h6] at heq; injection heq with hh _; rw [← hh]; decide
  rw [if_neg h6] at heq
  by_cases h7 : c = '\x0d'
  · rw [if_pos h7] at heq; injection heq with hh _; rw [← hh]; decide
  rw [if_neg h7] at heq
  by_cases h8 : c.toNat < 0x20
  · rw [if_pos h8] at heq; injection heq with hh _; rw [← hh]; decide
  · rw [if_neg h8] at heq
    injection heq with hh _
    rw [← hh]
    exact h1

/-- JSON string bodies are prefix-determined: if two escaped strings
followed by a closing quote (and anything after) coincide, the strings and
the remainders coincide. -/
theorem escChars_quote_inj :
    ∀ (s₁ s₂ r₁ r₂ : List Char),
      escChars s₁ ++ '"' :: r₁ = escChars s₂ ++ '"' :: r₂ → s₁ = s₂ ∧ r₁ = r₂ := by
  intro s₁
  induction s₁ with
  | nil =>
    intro s₂ r₁ r₂ h
    cases s₂ with
    | nil =>
      refine ⟨rfl, ?_⟩
      simpa [escChars] using h
    | cons c cs =>
      exfalso
      rw [show escChars [] = [] from rfl, List.nil_append] at h
      rw [show escChars (c :: cs) = escChar c ++ escChars cs from rfl,
        List.append_assoc] at h
      rcases hc : escChar c with _ | ⟨hd, tl⟩
      · exact escChar_ne_nil c hc
      · rw [hc] at h
        injection h with hh _
        exact escChar_head_ne_quote c hd tl hc hh.symm
  | cons c₁ cs₁ ih =>
    intro s₂ r₁ r₂ h
    cases s₂ with
    | nil =>
      exfalso
      rw [show escChars [] = [] from rfl, List.nil_append] at h
      rw [show escChars (c₁ :: cs₁) = escChar c₁ ++ escChars cs₁ from rfl,
        List.append_assoc] at h
      rcases hc : escChar c₁ with _ | ⟨hd, tl⟩
      · exact escChar_ne_nil c₁ hc
      · rw [hc] at h
        injection h with hh _
        exact escChar_head_ne_quote c₁ hd tl hc hh
    | cons c₂ cs₂ =>
      rw [show escChars (c₁ :: cs₁) = escChar c₁ ++ escChars cs₁ from rfl,
        show escChars (c₂ :: cs₂) = escChar c₂ ++ escChars cs₂ from rfl,
        List.append_assoc, List.append_assoc] at h
      have hdec := congrArg escHead h
      rw [escChar_escHead, escChar_escHead] at hdec
      injection hdec with hdec
      injection hdec with hc ht
      obtain ⟨h1, h2⟩ := ih cs₂ r₁ r₂ ht
      exact ⟨by rw [hc, h1], h2⟩

theorem natDecAux_ne_nil : ∀ (f n : Nat), n < f → natDecAux f n ≠ [] := by
  intro f n hf
  cases f with
  | zero => omega
  | succ f =>
    unfold natDecAux
    split <;> simp

theorem natDecAux_digits :
    ∀ (f n : Nat) (c : Char), c ∈ natDecAux f n → 48 ≤ c.toNat ∧ c.toNat ≤ 57 := by
  intro f
  induction f with
  | zero => intro n c hc; simp [natDecAux] at hc
  | succ f ih =>
    intro n c hc
    unfold natDecAux at hc
    by_cases h : n < 10
    · rw [if_pos h] at hc
      simp at hc
      subst hc
      rw [digitChar, toNat_ofNat_small _ (by omega)]
      omega
    · rw [if_neg h] at hc
      rcases List.mem_cons.mp hc with h1 | h1
      · subst h1
        have : n % 10 < 10 := Nat.mod_lt _ (by omega)
        rw [digitChar, toNat_ofNat_small _ (by omega)]
        omega
      · exact ih _ _ h1

theorem digitChar_inj (a b : Nat) (ha : a < 10) (hb : b < 10)
    (h : digitChar a = digitChar b) : a = b := by
  have := congrArg Char.toNat h
  rw [digitChar, digitChar, toNat_ofNat_small _ (by omega),
    toNat_ofNat_small _ (by omega)] at this
  omega

theorem natDecAux_inj :
    ∀ (f n f' n' : Nat), n < f → n' < f' →
      natDecAux f n = natDecAux f' n' → n = n' := by
  intro f
  induction f with
  | zero => intro n f' n' hf; omega
  | succ f ih =>
    intro n f' n' hf hf' h
    cases f' with
    | zero => omega
    | succ f' =>
      unfold natDecAux at h
      by_cases h1 : n < 10 <;> by_cases h2 : n' < 10
      · rw [if_pos h1, if_pos h2] at h
        injection h with h _
        exact digitChar_inj _ _ h1 h2 h
      · exfalso
        rw [if_pos h1, if_neg h2] at h
        injection h with _ h
        exact natDecAux_ne_nil f' (n' / 10) (by omega) h.symm
      · exfalso
        rw [if_neg h1, if_pos h2] at h
        injection h with _ h
        exact natDecAux_ne_nil f (n / 10) (by omega) h
      · rw [if_neg h1, if_neg h2] at h
        injection h with hd ht
        have hmod : n % 10 = n' % 10 :=
          digitChar_inj _ _ (Nat.mod_lt _ (by omega)) (Nat.mod_lt _ (by omega)) hd
        have hdiv : n / 10 = n' / 10 := ih (n / 10) f' (n' / 10) (by omega) (by omega) ht
        omega

theorem natDec_inj (n n' : Nat) (h : natDec n = natDec n') : n = n' := by
  have := congrArg List.reverse h
  rw [natDec, natDec, List.reverse_reverse, List.reverse_reverse] at this
  exact natDecAux_inj _ _ _ _ (Nat.lt_succ_self n) (Nat.lt_succ_self n') this

theorem natDec_digits (n : Nat) (c : Char) (hc : c ∈ natDec n) :
    48 ≤ c.toNat ∧ c.toNat ≤ 57 := by
  rw [natDec, List.mem_reverse] at hc
  exact natDecAux_digits _ _ _ hc

theorem natDec_ne_nil (n : Nat) : natDec n ≠ [] := by
  rw [natDec]
  intro h
  exact natDecAux_ne_nil _ _ (Nat.lt_succ_self n) (by simpa using h)

/-- The decimal rendering of an integer starts with `-` or a digit, and
contains only `-` and digits. -/
theorem intDec_chars (i : Int) (c : Char) (hc : c ∈ intDec i) :
    c = '-' ∨ (48 ≤ c.toNat ∧ c.toNat ≤ 57) := by
  cases i with
  | ofNat n => exact Or.inr (natDec_digits n c hc)
  | negSucc n =>
    rcases List.mem_cons.mp hc with h | h
    · exact Or.inl h
    · exact Or.inr (natDec_digits _ c h)

theorem intDec_inj (i i' : Int) (h : intDec i = intDec i') : i = i' := by
  cases i with
  | ofNat n =>
    cases i' with
    | ofNat n' => rw [natDec_inj n n' h]
    | negSucc n' =>
      exfalso
      rcases hd : natDec n with _ | ⟨c, cs⟩
      · exact natDec_ne_nil n hd
      · rw [show intDec (Int.ofNat n) = natDec n from rfl,
          show intDec (Int.negSucc n') = '-' :: natDec (n' + 1) from rfl, hd] at h
        injection h with h _
        have := natDec_digits n c (by rw [hd]; exact List.mem_cons_self c cs)
        rw [h] at this
        simp at this
  | negSucc n =>
    cases i' with
    | ofNat n' =>
      exfalso
      rcases hd : natDec n' with _ | ⟨c, cs⟩
      · exact natDec_ne_nil n' hd
      · rw [show intDec (Int.negSucc n) = '-' :: natDec (n + 1) from rfl,
          show intDec (Int.ofNat n') = natDec n' from rfl, hd] at h
        injection h with h _
        have := natDec_digits n' c (by rw [hd]; exact List.mem_cons_self c cs)
        rw [← h] at this
        simp at this
    | negSucc n' =>
      rw [show intDec (Int.negSucc n) = '-' :: natDec (n + 1) from rfl,
        show intDec (Int.negSucc n') = '-' :: natDec (n' + 1) from rfl] at h
      injection h with _ h
      have h2 := natDec_inj _ _ h
      have : n = n' := by omega
      rw [this]

/-- A list followed by a delimiter that occurs in neither list prefix is
determined by the delimiter position. -/
theorem append_delim_inj (d : Char) :
    ∀ (a₁ a₂ r₁ r₂ : List Char), d ∉ a₁ → d ∉ a₂ →
      a₁ ++ d :: r₁ = a₂ ++ d :: r₂ → a₁ = a₂ ∧ r₁ = r₂ := by
  intro a₁
  induction a₁ with
  | nil =>
    intro a₂ r₁ r₂ _ h2 h
    cases a₂ with
    | nil => simpa using h
    | cons b bs =>
      exfalso
      rw [List.nil_append, List.cons_append] at h
      injection h with hh _
      exact h2 (hh ▸ List.mem_cons_self b bs)
  | cons a as ih =>
    intro a₂ r₁ r₂ h1 h2 h
    cases a₂ with
    | nil =>
      exfalso
      rw [List.nil_append, List.cons_append] at h
      injection h with hh _
      exact h1 (hh ▸ List.mem_cons_self a as)
    | cons b bs =>
      rw [List.cons_append, List.cons_append] at h
      injection h with hh ht
      obtain ⟨e1, e2⟩ := ih bs r₁ r₂ (fun hm => h1 (List.mem_cons_of_mem a hm))
        (fun hm => h2 (List.mem_cons_of_mem b hm)) ht
      exact ⟨by rw [hh, e1], e2⟩

theorem intDec_ne_nil (i : Int) : intDec i ≠ [] := by
  cases i with
  | ofNat n => exact natDec_ne_nil n
  | negSucc n => simp [intDec]

theorem comma_not_mem_intDec (i : Int) : ',' ∉ intDec i := by
  intro hm
  rcases intDec_chars i ',' hm with h | h
  · exact absurd h (by decide)
  · have h44 : (',').toNat = 44 := rfl
    omega

/-- Whatever follows an integer rendering, the first character is `-` or a
digit. -/
theorem intDec_head_clash (c : Char) (i : Int) (cs cs' : List Char)
    (h : intDec i ++ cs = c :: cs') :
    c = '-' ∨ (48 ≤ c.toNat ∧ c.toNat ≤ 57) := by
  rcases hd : intDec i with _ | ⟨a, as⟩
  · exact absurd hd (intDec_ne_nil i)
  · rw [hd] at h
    injection h with hh _
    rw [← hh]
    exact intDec_chars i a (hd ▸ List.mem_cons_self a as)

/-- The comma-terminated JSON encoding of a primitive is
prefix-determined: values whose encodings-plus-delimiter open the same
character list are equal. -/
theorem jsonPrim_comma_inj :
    ∀ (v v' : Prim) (t₁ t₂ : List Char),
      jsonPrim v ++ ',' :: t₁ = jsonPrim v' ++ ',' :: t₂ → v = v' ∧ t₁ = t₂ := by
  intro v v' t₁ t₂ h
  cases v with
  | s x =>
    cases v' with
    | s x' =>
      simp only [jsonPrim, List.cons_append] at h
      injection h with _ h
      rw [List.append_assoc, List.append_assoc, List.singleton_append,
        List.singleton_append] at h
      obtain ⟨h1, h2⟩ := escChars_quote_inj _ _ _ _ h
      injection h2 with _ h2
      exact ⟨congrArg Prim.s (String.ext h1), h2⟩
    | i n =>
      exfalso
      rcases intDec_head_clash '"' n _ _ (by exact h.symm) with hq | hq
      · exact absurd hq (by decide)
      · have : ('"').toNat = 34 := rfl
        omega
    | b bb =>
      exfalso
      cases bb <;>
        · simp only [jsonPrim, List.cons_append] at h
          injection h with hh _
          exact absurd hh (by decide)
    | null =>
      exfalso
      simp only [jsonPrim, List.cons_append] at h
      injection h with hh _
      exact absurd hh (by decide)
  | i n =>
    cases v' with
    | s x =>
      exfalso
      rcases intDec_head_clash '"' n _ _ (by exact h) with hq | hq
      · exact absurd hq (by decide)
      · have : ('"').toNat = 34 := rfl
        omega
    | i n' =>
      obtain ⟨h1, h2⟩ := append_delim_inj ',' _ _ _ _
        (comma_not_mem_intDec n) (comma_not_mem_intDec n') h
      exact ⟨congrArg Prim.i (intDec_inj _ _ h1), h2⟩
    | b bb =>
      exfalso
      cases bb
      · rcases intDec_head_clash 'f' n _ _ (by exact h) with hq | hq
        · exact absurd hq (by decide)
        · have : ('f').toNat = 102 := rfl
          omega
      · rcases intDec_head_clash 't' n _ _ (by exact h) with hq | hq
        · exact absurd hq (by decide)
        · have : ('t').toNat = 116 := rfl
          omega
    | null =>
      exfalso
      rcases intDec_head_clash 'n' n _ _ (by exact h) with hq | hq
      · exact absurd hq (by decide)
      · have : ('n').toNat = 110 := rfl
        omega
  | b bb =>
    cases v' with
    | s x =>
      exfalso
      cases bb <;>
        · simp only [jsonPrim, List.cons_append] at h
          injection h with hh _
          exact absurd hh (by decide)
    | i n =>
      exfalso
      cases bb
      · rcases intDec_head_clash 'f' n _ _ (by exact h.symm) with hq | hq
        · exact absurd hq (by decide)
        · have : ('f').toNat = 102 := rfl
          omega
      · rcases intDec_head_clash 't' n _ _ (by exact h.symm) with hq | hq
        · exact absurd hq (by decide)
        · have : ('t').toNat = 116 := rfl
          omega
    | b bb' =>
      cases bb <;> cases bb' <;>
        simp only [jsonPrim, List.cons_append, List.nil_append] at h
      · injection h with _ h
        injection h with _ h
        injection h with _ h
        injection h with _ h
        injection h with _ h
        injection h with _ h
        exact ⟨rfl, h⟩
      · injection h with hh _
        exact absurd hh (by decide)
      · injection h with hh _
        exact absurd hh (by decide)
      · injection h with _ h
        injection h with _ h
        injection h with _ h
        injection h with _ h
        injection h with _ h
        exact ⟨rfl, h⟩
    | null =>
      exfalso
      cases bb <;>
        · simp only [jsonPrim, List.cons_append] at h
          injection h with hh _
          exact absurd hh (by decide)
  | null =>
    cases v' with
    | s x =>
      exfalso
      simp only [jsonPrim, List.cons_append] at h
      injection h with hh _
      exact absurd hh (by decide)
    | i n =>
      exfalso
      rcases intDec_head_clash 'n' n _ _ (by exact h.symm) with hq | hq
      · exact absurd hq (by decide)
      · have : ('n').toNat = 110 := rfl
        omega
    | b bb =>
      exfalso
      cases bb <;>
        · simp only [jsonPrim, List.cons_append] at h
          injection h with hh _
          exact absurd hh (by decide)
    | null =>
      simp only [jsonPrim, List.cons_append, List.nil_append] at h
      injection h with _ h
      injection h with _ h
      injection h with _ h
      injection h with _ h
      injection h with _ h
      exact ⟨rfl, h⟩

theorem joinComma_cons₂ (x y : List Char) (l : List (List Char)) :
    joinComma (x :: y :: l) = x ++ ',' :: joinComma (y :: l) := rfl

theorem storageKey_data (vs : List Prim) :
    (createPrimaryKeySetStorageKey vs).data =
      joinComma ((Prim.s "pKeySet" :: vs).map jsonPrim) ++ [','] := by
  show ((joinComma ((Prim.s "pKeySet" :: vs).map jsonPrim) ++ [']']).dropLast ++ [',']) = _
  simp

/-! ## Claim C10 -/

/-- C10: the `pKeySet` prefix used by the Join cleanup scan selects exactly
the storage keys recorded for its own join value: for every normalized
value `v` and primary-key values `pk`, `createPrimaryKeySetStorageKeyPrefix v`
is a string prefix of `createPrimaryKeySetStorageKey (v :: pk)`, and for
distinct values `v ≠ v'` it is never a prefix of a key built from `v'` —
because the comma-terminated JSON encoding of a primitive value is
prefix-determined. -/
theorem pKeySet_prefix_scan_exact :
    (∀ (v : Prim) (pk : List Prim),
      (createPrimaryKeySetStorageKeyPrefix v).data <+:
        (createPrimaryKeySetStorageKey (v :: pk)).data) ∧
    (∀ (v v' : Prim) (pk : List Prim), v ≠ v' →
      ¬ (createPrimaryKeySetStorageKeyPrefix v).data <+:
          (createPrimaryKeySetStorageKey (v' :: pk)).data) := by
  have hkey : ∀ (v : Prim) (pk : List Prim),
      (createPrimaryKeySetStorageKey (v :: pk)).data =
        jsonPrim (Prim.s "pKeySet") ++
          ',' :: (joinComma (jsonPrim v :: pk.map jsonPrim) ++ [',']) := by
    intro v pk
    rw [storageKey_data,
      show ((Prim.s "pKeySet" :: v :: pk).map jsonPrim) =
        jsonPrim (Prim.s "pKeySet") :: jsonPrim v :: pk.map jsonPrim from rfl,
      joinComma_cons₂]
    simp
  have hsingle : ∀ v : Prim,
      joinComma (jsonPrim v :: List.map jsonPrim ([] : List Prim)) = jsonPrim v :=
    fun v => rfl
  constructor
  · intro v pk
    rw [show createPrimaryKeySetStorageKeyPrefix v =
      createPrimaryKeySetStorageKey [v] from rfl, hkey v [], hkey v pk]
    cases pk with
    | nil => exact List.prefix_refl _
    | cons p ps =>
      refine ⟨joinComma (jsonPrim p :: ps.map jsonPrim) ++ [','], ?_⟩
      rw [show List.map jsonPrim (p :: ps) = jsonPrim p :: ps.map jsonPrim from rfl,
        joinComma_cons₂, hsingle]
      simp
  · intro v v' pk hne hpre
    rw [show createPrimaryKeySetStorageKeyPrefix v =
      createPrimaryKeySetStorageKey [v] from rfl, hkey v [], hkey v' pk] at hpre
    obtain ⟨t, ht⟩ := hpre
    rw [List.append_assoc] at ht
    have ht2 := List.append_cancel_left ht
    rw [List.cons_append] at ht2
    injection ht2 with _ ht3
    rw [hsingle] at ht3
    cases pk with
    | nil =>
      rw [hsingle, List.append_assoc, List.singleton_append] at ht3
      have := jsonPrim_comma_inj v v' _ _
        (by rw [ht3, show ([','] : List Char) = ',' :: [] from rfl])
      exact hne this.1
    | cons p ps =>
      rw [show List.map jsonPrim (p :: ps) = jsonPrim p :: ps.map jsonPrim from rfl,
        joinComma_cons₂, List.append_assoc, List.singleton_append,
        List.append_assoc, List.cons_append] at ht3
      have := jsonPrim_comma_inj v v' _ _ ht3
      exact hne this.1

/-- Witness for the distinctness hypothesis of `pKeySet_prefix_scan_exact`:
the prefix for join value `"u1"` matches no key recorded for `"u2"`. -/
theorem pKeySet_prefix_scan_exact_witness :
    Prim.s "u1" ≠ Prim.s "u2" ∧
    ¬ (createPrimaryKeySetStorageKeyPrefix (Prim.s "u1")).data <+:
        (createPrimaryKeySetStorageKey [Prim.s "u2", Prim.s "i1"]).data :=
  ⟨by decide, pKeySet_prefix_scan_exact.2 (Prim.s "u1") (Prim.s "u2") [Prim.s "i1"]
    (by decide)⟩

/-! ## Lawfulness of the normalization comparators (for claim C3) -/

theorem then_eq_eq (x y : Ordering) : x.then y = .eq ↔ x = .eq ∧ y = .eq := by
  cases x <;> simp [Ordering.then]

theorem then_eq_lt (x y : Ordering) : x.then y = .lt ↔ x = .lt ∨ (x = .eq ∧ y = .lt) := by
  cases x <;> simp [Ordering.then]

theorem then_swap₂ {a₁ a₂ b₁ b₂ : Ordering} (h1 : a₁ = b₁.swap) (h2 : a₂ = b₂.swap) :
    a₁.then a₂ = (b₁.then b₂).swap := by
  subst h1
  subst h2
  cases b₁ <;> rfl

theorem cmpNat_swap (a b : Nat) : cmpNat b a = (cmpNat a b).swap := by
  unfold cmpNat
  rcases Nat.lt_trichotomy a b with h | h | h
  · rw [if_neg (show ¬ b < a by omega), if_pos h, if_pos h]
    rfl
  · subst h
    repeat rw [if_neg (lt_irrefl a)]
    rfl
  · rw [if_pos h, if_neg (show ¬ a < b by omega), if_pos h]
    rfl

theorem cmpNat_eq_iff (a b : Nat) : cmpNat a b = .eq ↔ a = b := by
  unfold cmpNat
  rcases Nat.lt_trichotomy a b with h | h | h
  · rw [if_pos h]
    constructor
    · intro hc; cases hc
    · omega
  · rw [if_neg (by omega), if_neg (by omega)]
    simp [h]
  · rw [if_neg (by omega), if_pos h]
    constructor
    · intro hc; cases hc
    · omega

theorem cmpNat_lt_iff (a b : Nat) : cmpNat a b = .lt ↔ a < b := by
  unfold cmpNat
  rcases Nat.lt_trichotomy a b with h | h | h
  · rw [if_pos h]
    simp [h]
  · rw [if_neg (by omega), if_neg (by omega)]
    constructor
    · intro hc; cases hc
    · omega
  · rw [if_neg (by omega), if_pos h]
    constructor
    · intro hc; cases hc
    · omega

theorem cmpChars_swap : ∀ l₁ l₂ : List Char, cmpChars l₂ l₁ = (cmpChars l₁ l₂).swap
  | [], [] => rfl
  | [], _ :: _ => rfl
  | _ :: _, [] => rfl
  | a :: as, b :: bs => by
    show (cmpNat b.toNat a.toNat).then (cmpChars bs as) = _
    exact then_swap₂ (cmpNat_swap a.toNat b.toNat) (cmpChars_swap as bs)

theorem cmpChars_eq_iff : ∀ l₁ l₂ : List Char, cmpChars l₁ l₂ = .eq ↔ l₁ = l₂
  | [], [] => by simp [cmpChars]
  | [], _ :: _ => by simp [cmpChars]
  | _ :: _, [] => by simp [cmpChars]
  | a :: as, b :: bs => by
    show (cmpNat a.toNat b.toNat).then (cmpChars as bs) = .eq ↔ _
    rw [then_eq_eq, cmpNat_eq_iff, cmpChars_eq_iff as bs]
    constructor
    · rintro ⟨h1, h2⟩
      have ha : a = b := Char.ext (UInt32.ext h1)
      rw [ha, h2]
    · intro h
      injection h with h1 h2
      exact ⟨by rw [h1], h2⟩

theorem cmpChars_lt_trans :
    ∀ l₁ l₂ l₃ : List Char,
      cmpChars l₁ l₂ = .lt → cmpChars l₂ l₃ = .lt → cmpChars l₁ l₃ = .lt
  | _, [], [] => by intro _ h2; cases h2
  | [], _ :: _, [] => by intro _ h2; cases h2
  | _ :: _, _ :: _, [] => by intro _ h2; cases h2
  | _ :: _, [], _ :: _ => by intro h1; cases h1
  | [], [], _ :: _ => by intro h1; cases h1
  | [], _ :: _, _ :: _ => by intro _ _; rfl
  | a :: as, b :: bs, c :: cs => by
    intro h1 h2
    rw [show cmpChars (a :: as) (b :: bs) =
      (cmpNat a.toNat b.toNat).then (cmpChars as bs) from rfl, then_eq_lt] at h1
    rw [show cmpChars (b :: bs) (c :: cs) =
      (cmpNat b.toNat c.toNat).then (cmpChars bs cs) from rfl, then_eq_lt] at h2
    rw [show cmpChars (a :: as) (c :: cs) =
      (cmpNat a.toNat c.toNat).then (cmpChars as cs) from rfl, then_eq_lt]
    rcases h1 with h1 | ⟨h1, h1t⟩ <;> rcases h2 with h2 | ⟨h2, h2t⟩
    · exact Or.inl ((cmpNat_lt_iff _ _).mpr
        (Nat.lt_trans ((cmpNat_lt_iff _ _).mp h1) ((cmpNat_lt_iff _ _).mp h2)))
    · rw [← (cmpNat_eq_iff _ _).mp h2]
      exact Or.inl h1
    · rw [(cmpNat_eq_iff _ _).mp h1]
      exact Or.inl h2
    · rw [(cmpNat_eq_iff _ _).mp h1, (cmpNat_eq_iff _ _).mp h2]
      exact Or.inr ⟨(cmpNat_eq_iff _ _).mpr rfl, cmpChars_lt_trans as bs cs h1t h2t⟩

theorem cmpStr_swap (a b : String) : cmpStr b a = (cmpStr a b).swap :=
  cmpChars_swap a.data b.data

theorem cmpStr_eq_iff (a b : String) : cmpStr a b = .eq ↔ a = b := by
  rw [cmpStr, cmpChars_eq_iff]
  constructor
  · exact String.ext
  · intro h; rw [h]

theorem cmpStr_lt_trans {a b c : String} (h1 : cmpStr a b = .lt) (h2 : cmpStr b c = .lt) :
    cmpStr a c = .lt :=
  cmpChars_lt_trans a.data b.data c.data h1 h2

theorem conjOp_toStr_inj : ∀ a b : ConjOp, a.toStr = b.toStr → a = b := by
  intro a b
  cases a <;> cases b <;> simp [ConjOp.toStr]

theorem lexStr3_lt_trans {a₁ a₂ a₃ b₁ b₂ b₃ c₁ c₂ c₃ : String}
    (h1 : (cmpStr a₁ b₁).then ((cmpStr a₂ b₂).then (cmpStr a₃ b₃)) = .lt)
    (h2 : (cmpStr b₁ c₁).then ((cmpStr b₂ c₂).then (cmpStr b₃ c₃)) = .lt) :
    (cmpStr a₁ c₁).then ((cmpStr a₂ c₂).then (cmpStr a₃ c₃)) = .lt := by
  rw [then_eq_lt] at h1 h2 ⊢
  rcases h1 with h1 | ⟨h1e, h1i⟩ <;> rcases h2 with h2 | ⟨h2e, h2i⟩
  · exact Or.inl (cmpStr_lt_trans h1 h2)
  · rw [← (cmpStr_eq_iff _ _).mp h2e]
    exact Or.inl h1
  · rw [(cmpStr_eq_iff _ _).mp h1e]
    exact Or.inl h2
  · refine Or.inr ⟨(cmpStr_eq_iff _ _).mpr
      (((cmpStr_eq_iff _ _).mp h1e).trans ((cmpStr_eq_iff _ _).mp h2e)), ?_⟩
    rw [then_eq_lt] at h1i h2i ⊢
    rcases h1i with h1i | ⟨h1j, h1k⟩ <;> rcases h2i with h2i | ⟨h2j, h2k⟩
    · exact Or.inl (cmpStr_lt_trans h1i h2i)
    · rw [← (cmpStr_eq_iff _ _).mp h2j]
      exact Or.inl h1i
    · rw [(cmpStr_eq_iff _ _).mp h1j]
      exact Or.inl h2i
    · refine Or.inr ⟨(cmpStr_eq_iff _ _).mpr
        (((cmpStr_eq_iff _ _).mp h1j).trans ((cmpStr_eq_iff _ _).mp h2j)),
        cmpStr_lt_trans h1k h2k⟩

mutual

theorem cmpCond_swap : ∀ a b : Cond, cmpCond b a = (cmpCond a b).swap
  | .simple o1 f1 v1, .simple o2 f2 v2 =>
    then_swap₂ (cmpStr_swap f1 f2) (then_swap₂ (cmpStr_swap o1 o2)
      (cmpStr_swap (primToString v1) (primToString v2)))
  | .simple _ _ _, .conj _ _ => rfl
  | .conj _ _, .simple _ _ _ => rfl
  | .conj aop acs, .conj bop bcs =>
    then_swap₂ (cmpStr_swap aop.toStr bop.toStr) (cmpCondList_swap acs bcs)

theorem cmpCondList_swap : ∀ l₁ l₂ : List Cond, cmpCondList l₂ l₁ = (cmpCondList l₁ l₂).swap
  | [], [] => rfl
  | [], _ :: _ => rfl
  | _ :: _, [] => rfl
  | a :: as, b :: bs => then_swap₂ (cmpCond_swap a b) (cmpCondList_swap as bs)

end

mutual

theorem cmpCond_eq_congr : ∀ a b : Cond,
    cmpCond a b = .eq → ∀ c, cmpCond a c = cmpCond b c
  | .simple o1 f1 v1, .simple o2 f2 v2 => by
    intro h c
    rw [show cmpCond (.simple o1 f1 v1) (.simple o2 f2 v2) =
      (cmpStr f1 f2).then ((cmpStr o1 o2).then
        (cmpStr (primToString v1) (primToString v2))) from rfl,
      then_eq_eq, then_eq_eq] at h
    have hf := (cmpStr_eq_iff _ _).mp h.1
    have ho := (cmpStr_eq_iff _ _).mp h.2.1
    have hv := (cmpStr_eq_iff _ _).mp h.2.2
    cases c with
    | simple oc fc vc =>
      show (cmpStr f1 fc).then ((cmpStr o1 oc).then
        (cmpStr (primToString v1) (primToString vc))) = _
      rw [hf, ho, hv]
      rfl
    | conj _ _ => rfl
  | .simple _ _ _, .conj _ _ => fun h => Ordering.noConfusion h
  | .conj _ _, .simple _ _ _ => fun h => Ordering.noConfusion h
  | .conj aop acs, .conj bop bcs => by
    intro h c
    rw [show cmpCond (.conj aop acs) (.conj bop bcs) =
      (cmpStr aop.toStr bop.toStr).then (cmpCondList acs bcs) from rfl,
      then_eq_eq] at h
    have hop : aop = bop := conjOp_toStr_inj _ _ ((cmpStr_eq_iff _ _).mp h.1)
    cases c with
    | simple _ _ _ => rfl
    | conj oc lc =>
      show (cmpStr aop.toStr oc.toStr).then (cmpCondList acs lc) = _
      rw [hop, cmpCondList_eq_congr acs bcs h.2 lc]
      rfl

theorem cmpCondList_eq_congr : ∀ l₁ l₂ : List Cond,
    cmpCondList l₁ l₂ = .eq → ∀ l₃, cmpCondList l₁ l₃ = cmpCondList l₂ l₃
  | [], [] => fun _ _ => rfl
  | [], _ :: _ => fun h => Ordering.noConfusion h
  | _ :: _, [] => fun h => Ordering.noConfusion h
  | a :: as, b :: bs => by
    intro h l₃
    rw [show cmpCondList (a :: as) (b :: bs) =
      (cmpCond a b).then (cmpCondList as bs) from rfl, then_eq_eq] at h
    cases l₃ with
    | nil => rfl
    | cons c cs =>
      show (cmpCond a c).then (cmpCondList as cs) = _
      rw [cmpCond_eq_congr a b h.1 c, cmpCondList_eq_congr as bs h.2 cs]
      rfl

end

mutual

theorem cmpCond_lt_trans : ∀ a b c : Cond,
    cmpCond a b = .lt → cmpCond b c = .lt → cmpCond a c = .lt
  | .simple o1 f1 v1, .simple o2 f2 v2, .simple o3 f3 v3 => fun h1 h2 =>
    lexStr3_lt_trans h1 h2
  | .simple _ _ _, .simple _ _ _, .conj _ _ => fun _ _ => rfl
  | .simple _ _ _, .conj _ _, .simple _ _ _ => fun _ h2 => Ordering.noConfusion h2
  | .simple _ _ _, .conj _ _, .conj _ _ => fun _ _ => rfl
  | .conj _ _, .simple _ _ _, _ => fun h1 _ => Ordering.noConfusion h1
  | .conj _ _, .conj _ _, .simple _ _ _ => fun _ h2 => Ordering.noConfusion h2
  | .conj aop acs, .conj bop bcs, .conj cop ccs => by
    intro h1 h2
    rw [show cmpCond (.conj aop acs) (.conj bop bcs) =
      (cmpStr aop.toStr bop.toStr).then (cmpCondList acs bcs) from rfl,
      then_eq_lt] at h1
    rw [show cmpCond (.conj bop bcs) (.conj cop ccs) =
      (cmpStr bop.toStr cop.toStr).then (cmpCondList bcs ccs) from rfl,
      then_eq_lt] at h2
    rw [show cmpCond (.conj aop acs) (.conj cop ccs) =
      (cmpStr aop.toStr cop.toStr).then (cmpCondList acs ccs) from rfl,
      then_eq_lt]
    rcases h1 with h1 | ⟨h1e, h1t⟩ <;> rcases h2 with h2 | ⟨h2e, h2t⟩
    · exact Or.inl (cmpStr_lt_trans h1 h2)
    · rw [← (cmpStr_eq_iff _ _).mp h2e]
      exact Or.inl h1
    · rw [(cmpStr_eq_iff _ _).mp h1e]
      exact Or.inl h2
    · exact Or.inr ⟨(cmpStr_eq_iff _ _).mpr
        (((cmpStr_eq_iff _ _).mp h1e).trans ((cmpStr_eq_iff _ _).mp h2e)),
        cmpCondList_lt_trans acs bcs ccs h1t h2t⟩

theorem cmpCondList_lt_trans : ∀ l₁ l₂ l₃ : List Cond,
    cmpCondList l₁ l₂ = .lt → cmpCondList l₂ l₃ = .lt → cmpCondList l₁ l₃ = .lt
  | [], [], _ => fun h1 _ => Ordering.noConfusion h1
  | _ :: _, [], _ => fun h1 _ => Ordering.noConfusion h1
  | _, _ :: _, [] => fun _ h2 => Ordering.noConfusion h2
  | [], _ :: _, _ :: _ => fun _ _ => rfl
  | a :: as, b :: bs, c :: cs => by
    intro h1 h2
    rw [show cmpCondList (a :: as) (b :: bs) =
      (cmpCond a b).then (cmpCondList as bs) from rfl, then_eq_lt] at h1
    rw [show cmpCondList (b :: bs) (c :: cs) =
      (cmpCond b c).then (cmpCondList bs cs) from rfl, then_eq_lt] at h2
    rw [show cmpCondList (a :: as) (c :: cs) =
      (cmpCond a c).then (cmpCondList as cs) from rfl, then_eq_lt]
    rcases h1 with h1 | ⟨h1e, h1t⟩ <;> rcases h2 with h2 | ⟨h2e, h2t⟩
    · exact Or.inl (cmpCond_lt_trans a b c h1 h2)
    · refine Or.inl ?_
      have hba : cmpCond b a = .gt := by
        rw [cmpCond_swap, h1]
        rfl
      have hca : cmpCond c a = .gt := by
        rw [← cmpCond_eq_congr b c h2e a]
        exact hba
      have := cmpCond_swap c a
      rw [hca] at this
      exact this
    · refine Or.inl ?_
      rw [cmpCond_eq_congr a b h1e c]
      exact h2
    · exact Or.inr ⟨by rw [cmpCond_eq_congr a b h1e c]; exact h2e,
        cmpCondList_lt_trans as bs cs h1t h2t⟩

end

theorem condLE_iff (a b : Cond) :
    condLE a b = true ↔ cmpCond a b = .lt ∨ cmpCond a b = .eq := by
  unfold condLE
  cases cmpCond a b <;> simp

theorem condLE_total (a b : Cond) : condLE a b || condLE b a := by
  rcases h : cmpCond a b with _ | _ | _
  · simp [condLE_iff, h]
  · simp [condLE_iff, h]
  · have : cmpCond b a = .lt := by
      rw [cmpCond_swap, h]
      rfl
    simp [condLE_iff, this]

theorem condLE_trans (a b c : Cond) (h1 : condLE a b = true) (h2 : condLE b c = true) :
    condLE a c = true := by
  rw [condLE_iff] at h1 h2 ⊢
  rcases h1 with h1 | h1 <;> rcases h2 with h2 | h2
  · exact Or.inl (cmpCond_lt_trans a b c h1 h2)
  · refine Or.inl ?_
    have hba : cmpCond b a = .gt := by
      rw [cmpCond_swap, h1]
      rfl
    have hca : cmpCond c a = .gt := by
      rw [← cmpCond_eq_congr b c h2 a]
      exact hba
    have := cmpCond_swap c a
    rw [hca] at this
    exact this
  · exact Or.inl (by rw [cmpCond_eq_congr a b h1 c]; exact h2)
  · exact Or.inr (by rw [cmpCond_eq_congr a b h1 c]; exact h2)

theorem condLE_antisymm_ties (a b : Cond) (h1 : condLE a b = true)
    (h2 : condLE b a = true) : cmpCond a b = .eq := by
  rw [condLE_iff] at h1 h2
  rcases h1 with h1 | h1
  · exfalso
    rcases h2 with h2 | h2
    · have := cmpCond_swap b a
      rw [h2, h1] at this
      cases this
    · have := cmpCond_eq_congr b a h2 b
      rw [h1] at this
      have h3 : cmpCond b b = .eq := by
        rcases hbb : cmpCond b b with _ | _ | _
        · have := cmpCond_swap b b
          rw [hbb] at this
          exact absurd this (by decide)
        · rfl
        · have := cmpCond_swap b b
          rw [hbb] at this
          exact absurd this (by decide)
      rw [h3] at this
      cases this
  · exact h1

/-! ## Stable-sort lemmas -/

theorem insertLE_perm (le : α → α → Bool) (a : α) (l : List α) :
    (insertLE le a l).Perm (a :: l) := by
  induction l with
  | nil => exact List.Perm.refl _
  | cons b bs ih =>
    unfold insertLE
    by_cases h : le a b
    · rw [if_pos h]
    · rw [if_neg h]
      exact (ih.cons b).trans (List.Perm.swap a b bs)

theorem sortLE_perm (le : α → α → Bool) (l : List α) : (sortLE le l).Perm l := by
  induction l with
  | nil => exact List.Perm.refl _
  | cons a as ih => exact (insertLE_perm le a (sortLE le as)).trans (ih.cons a)

theorem insertLE_pairwise (le : α → α → Bool)
    (htotal : ∀ a b, (le a b || le b a) = true)
    (htrans : ∀ a b c, le a b = true → le b c = true → le a c = true)
    (a : α) (l : List α) (hl : l.Pairwise fun x y => le x y = true) :
    (insertLE le a l).Pairwise fun x y => le x y = true := by
  induction l with
  | nil => simp [insertLE]
  | cons b bs ih =>
    rcases List.pairwise_cons.mp hl with ⟨hb, hbs⟩
    unfold insertLE
    by_cases h : le a b
    · rw [if_pos h]
      refine List.pairwise_cons.mpr ⟨?_, hl⟩
      intro x hx
      rcases List.mem_cons.mp hx with hx | hx
      · rw [hx]
        exact h
      · exact htrans a b x h (hb x hx)
    · rw [if_neg h]
      refine List.pairwise_cons.mpr ⟨?_, ih hbs⟩
      intro x hx
      have hx2 : x ∈ a :: bs := (insertLE_perm le a bs).mem_iff.mp hx
      rcases List.mem_cons.mp hx2 with h1 | h1
      · rw [h1]
        rcases Bool.or_eq_true_iff.mp (htotal a b) with h2 | h2
        · exact absurd h2 h
        · exact h2
      · exact hb x h1

theorem sortLE_pairwise (le : α → α → Bool)
    (htotal : ∀ a b, (le a b || le b a) = true)
    (htrans : ∀ a b c, le a b = true → le b c = true → le a c = true)
    (l : List α) : (sortLE le l).Pairwise fun x y => le x y = true := by
  induction l with
  | nil => simp [sortLE]
  | cons a as ih => exact insertLE_pairwise le htotal htrans a (sortLE le as) ih

theorem pairwise_perm_eq (le : α → α → Bool) :
    ∀ (l₁ l₂ : List α), l₁.Perm l₂ →
      l₁.Pairwise (fun x y => le x y = true) →
      l₂.Pairwise (fun x y => le x y = true) →
      (∀ a ∈ l₁, ∀ b ∈ l₁, le a b = true → le b a = true → a = b) →
      l₁ = l₂ := by
  intro l₁
  induction l₁ with
  | nil =>
    intro l₂ hperm _ _ _
    exact hperm.nil_eq
  | cons a as ih =>
    intro l₂ hperm hp₁ hp₂ hanti
    cases l₂ with
    | nil => exact absurd hperm.symm.nil_eq (by simp)
    | cons b bs =>
      rcases List.pairwise_cons.mp hp₁ with ⟨ha, has⟩
      rcases List.pairwise_cons.mp hp₂ with ⟨hb, hbs⟩
      have hab : a = b := by
        have hain : a ∈ b :: bs := hperm.mem_iff.mp (List.mem_cons_self a as)
        have hbin : b ∈ a :: as := hperm.mem_iff.mpr (List.mem_cons_self b bs)
        rcases List.mem_cons.mp hain with h1 | h1
        · exact h1
        · rcases List.mem_cons.mp hbin with h2 | h2
          · exact h2.symm
          · exact hanti a (List.mem_cons_self a as) b (List.mem_cons_of_mem a h2)
              (ha b h2) (hb a h1)
      subst hab
      have htail : as.Perm bs := hperm.cons_inv
      rw [ih bs htail has hbs
        (fun x hx y hy => hanti x (List.mem_cons_of_mem a hx) y (List.mem_cons_of_mem a hy))]

theorem sortLE_eq_of_perm (le : α → α → Bool)
    (htotal : ∀ a b, (le a b || le b a) = true)
    (htrans : ∀ a b c, le a b = true → le b c = true → le a c = true)
    (l₁ l₂ : List α) (hperm : l₁.Perm l₂)
    (hanti : ∀ a ∈ l₁, ∀ b ∈ l₁, le a b = true → le b a = true → a = b) :
    sortLE le l₁ = sortLE le l₂ := by
  refine pairwise_perm_eq le _ _
    ((sortLE_perm le l₁).trans (hperm.trans (sortLE_perm le l₂).symm))
    (sortLE_pairwise le htotal htrans l₁) (sortLE_pairwise le htotal htrans l₂) ?_
  intro a hma b hmb
  exact hanti a ((sortLE_perm le l₁).mem_iff.mp hma) b ((sortLE_perm le l₁).mem_iff.mp hmb)

/-! ## Properties of permutation-equivalence -/

mutual

theorem permEq_refl : ∀ c : Cond, PermEq c c
  | .simple o f v => .simple o f v
  | .conj op cs => .conj op (permEqList_refl cs)

theorem permEqList_refl : ∀ l : List Cond, PermEqList l l
  | [] => .nil
  | c :: rest => .cons (permEq_refl c) (permEqList_refl rest)

end

theorem permEqList_length {l₁ l₂ : List Cond} (h : PermEqList l₁ l₂) :
    l₁.length = l₂.length := by
  refine @PermEqList.rec (fun _ _ _ => True)
    (fun l₁ l₂ _ => l₁.length = l₂.length) ?_ ?_ ?_ ?_ ?_ ?_ l₁ l₂ h
  · intro _ _ _
    trivial
  · intro _ _ _ _ _
    trivial
  · rfl
  · intro a b m₁ m₂ _ _ _ ih
    simpa using ih
  · intro a a' b b' m₁ m₂ _ _ _ _ _ ih
    simpa using ih
  · intro _ _ _ _ _ ih₁ ih₂
    exact ih₁.trans ih₂

theorem perm_to_permEqList {l₁ l₂ : List Cond} (h : l₁.Perm l₂) : PermEqList l₁ l₂ := by
  induction h with
  | nil => exact .nil
  | cons x _ ih => exact .cons (permEq_refl x) ih
  | swap x y l => exact .swap (permEq_refl y) (permEq_refl x) (permEqList_refl l)
  | trans _ _ ih₁ ih₂ => exact ih₁.trans ih₂

theorem permEqList_append {w x : List Cond} (h : PermEqList w x) :
    ∀ {y z : List Cond}, PermEqList y z → PermEqList (w ++ y) (x ++ z) := by
  refine @PermEqList.rec (fun _ _ _ => True)
    (fun w x _ => ∀ {y z : List Cond}, PermEqList y z → PermEqList (w ++ y) (x ++ z))
    ?_ ?_ ?_ ?_ ?_ ?_ w x h
  · intro _ _ _
    trivial
  · intro _ _ _ _ _
    trivial
  · intro y z hyz
    exact hyz
  · intro a b m₁ m₂ pe _ _ ih y z hyz
    exact .cons pe (ih hyz)
  · intro a a' b b' m₁ m₂ pea peb _ _ _ ih y z hyz
    exact .swap pea peb (ih hyz)
  · intro m₁ m₂ m₃ _ _ ih₁ ih₂ y z hyz
    exact (ih₁ (permEqList_refl y)).trans (ih₂ hyz)

theorem permEq_trans {c₁ c₂ : Cond} (h : PermEq c₁ c₂) :
    ∀ {c₃ : Cond}, PermEq c₂ c₃ → PermEq c₁ c₃ := by
  refine @PermEq.rec
    (fun c₁ c₂ _ => ∀ {c₃ : Cond}, PermEq c₂ c₃ → PermEq c₁ c₃)
    (fun l₁ l₂ _ => ∀ {l₃ : List Cond}, PermEqList l₂ l₃ → PermEqList l₁ l₃)
    ?_ ?_ ?_ ?_ ?_ ?_ c₁ c₂ h
  · intro _ _ _ _ h₃
    exact h₃
  · intro op cs₁ cs₂ pl _ c₃ h₃
    cases h₃ with
    | conj _ pl₂ => exact .conj op (pl.trans pl₂)
  · intro _ h₃
    exact h₃
  · intro a b m₁ m₂ pe pl _ _ l₃ h₃
    exact (PermEqList.cons pe pl).trans h₃
  · intro a a' b b' m₁ m₂ pea peb pl _ _ _ l₃ h₃
    exact (PermEqList.swap pea peb pl).trans h₃
  · intro m₁ m₂ m₃ pl₁ pl₂ _ _ l₃ h₃
    exact (pl₁.trans pl₂).trans h₃

theorem permEqList_singleton {l₁ l₂ : List Cond} (h : PermEqList l₁ l₂) :
    ∀ a, l₁ = [a] → ∃ b, l₂ = [b] ∧ PermEq a b := by
  refine @PermEqList.rec (fun _ _ _ => True)
    (fun l₁ l₂ _ => ∀ a, l₁ = [a] → ∃ b, l₂ = [b] ∧ PermEq a b)
    ?_ ?_ ?_ ?_ ?_ ?_ l₁ l₂ h
  · intro _ _ _
    trivial
  · intro _ _ _ _ _
    trivial
  · intro a ha
    exact absurd ha (by simp)
  · intro a b m₁ m₂ pe pl _ _ a₀ ha
    injection ha with h1 h2
    subst h1
    have : m₂ = [] := List.length_eq_zero.mp (by rw [← permEqList_length pl, h2]; rfl)
    exact ⟨b, by rw [this], pe⟩
  · intro a a' b b' m₁ m₂ _ _ _ _ _ _ a₀ ha
    exact absurd ha (by simp)
  · intro m₁ m₂ m₃ _ _ ih₁ ih₂ a₀ ha
    obtain ⟨b, hb, pe₁⟩ := ih₁ a₀ ha
    obtain ⟨c, hc, pe₂⟩ := ih₂ b hb
    exact ⟨c, hc, permEq_trans pe₁ pe₂⟩

theorem permEqO_toList {o₁ o₂ : Option Cond} (h : PermEqO o₁ o₂) :
    PermEqList o₁.toList o₂.toList := by
  match o₁, o₂ with
  | none, none => exact .nil
  | some a, some b => exact .cons h .nil
  | none, some _ => exact absurd h not_false
  | some _, none => exact absurd h not_false

theorem flattenTop_cons (c : Cond) (rest : List Cond) :
    flattenTop (c :: rest) = (flattenedC c).toList ++ flattenTop rest := rfl

theorem flattenInto_cons (op : ConjOp) (c : Cond) (rest : List Cond) :
    flattenInto op (c :: rest) = flattenInto op [c] ++ flattenInto op rest := by
  cases c <;> simp [flattenInto]

theorem flattenedC_conj (op : ConjOp) (cs : List Cond) :
    flattenedC (.conj op cs) =
      match flattenInto op cs with
      | [] => none
      | [c] => some c
      | conditions => some (.conj op conditions) := rfl

theorem flattenInto_single_conj (qop op : ConjOp) (cs : List Cond) :
    flattenInto qop [Cond.conj op cs] =
      if op = qop then flattenTop cs else (flattenedC (.conj op cs)).toList := by
  show (if op = qop then flattenTop cs else (flattenedC (.conj op cs)).toList) ++
    flattenInto qop [] = _
  rw [show flattenInto qop ([] : List Cond) = [] from rfl, List.append_nil]

theorem perm_append_middle (x y z : List Cond) :
    (x ++ (y ++ z)).Perm (y ++ (x ++ z)) := by
  rw [← List.append_assoc, ← List.append_assoc]
  exact List.perm_append_comm.append_right z

/-- Flattening respects permutation-equivalence: permuting the conditions
inside the conjunctions of a condition tree permutes (up to `PermEq`) the
flattened result. -/
theorem flatten_respects {c₁ c₂ : Cond} (h : PermEq c₁ c₂) :
    PermEqO (flattenedC c₁) (flattenedC c₂) := by
  refine (@PermEq.rec
    (fun c₁ c₂ _ => PermEqO (flattenedC c₁) (flattenedC c₂) ∧
      ∀ op, PermEqList (flattenInto op [c₁]) (flattenInto op [c₂]))
    (fun l₁ l₂ _ => ∀ op, PermEqList (flattenInto op l₁) (flattenInto op l₂) ∧
      PermEqList (flattenTop l₁) (flattenTop l₂))
    ?_ ?_ ?_ ?_ ?_ ?_ c₁ c₂ h).1
  · intro o f v
    refine ⟨PermEq.simple o f v, ?_⟩
    intro qop
    exact .cons (.simple o f v) .nil
  · intro op cs₁ cs₂ pl ihl
    have hrel := (ihl op).1
    have hlen := permEqList_length hrel
    have hpart1 : PermEqO (flattenedC (.conj op cs₁)) (flattenedC (.conj op cs₂)) := by
      rw [flattenedC_conj, flattenedC_conj]
      rcases h1 : flattenInto op cs₁ with _ | ⟨x, xs⟩
      · have h2 : flattenInto op cs₂ = [] := by
          rw [h1] at hlen
          exact List.length_eq_zero.mp hlen.symm
        rw [h2]
        exact True.intro
      · cases xs with
        | nil =>
          obtain ⟨y, hy, pexy⟩ := permEqList_singleton hrel x h1
          rw [hy]
          exact pexy
        | cons x2 xs2 =>
          rcases h2 : flattenInto op cs₂ with _ | ⟨y, _ | ⟨y2, ys2⟩⟩
          · rw [h1, h2] at hlen
            simp at hlen
          · rw [h1, h2] at hlen
            simp at hlen
          · refine PermEq.conj op ?_
            rw [← h1, ← h2]
            exact hrel
    refine ⟨hpart1, ?_⟩
    intro qop
    rw [flattenInto_single_conj, flattenInto_single_conj]
    by_cases hq : op = qop
    · rw [if_pos hq, if_pos hq]
      exact (ihl qop).2
    · rw [if_neg hq, if_neg hq]
      exact permEqO_toList hpart1
  · intro op
    exact ⟨.nil, .nil⟩
  · intro a b l₁ l₂ pe pl ihe ihl op
    constructor
    · rw [flattenInto_cons op a l₁, flattenInto_cons op b l₂]
      exact permEqList_append (ihe.2 op) ((ihl op).1)
    · rw [flattenTop_cons, flattenTop_cons]
      exact permEqList_append (permEqO_toList ihe.1) ((ihl op).2)
  · intro a a' b b' l₁ l₂ pea peb pl ihea iheb ihl op
    constructor
    · rw [flattenInto_cons op a (b :: l₁), flattenInto_cons op b l₁,
        flattenInto_cons op b' (a' :: l₂), flattenInto_cons op a' l₂]
      exact (permEqList_append (ihea.2 op)
          (permEqList_append (iheb.2 op) ((ihl op).1))).trans
        (perm_to_permEqList (perm_append_middle _ _ _))
    · rw [flattenTop_cons, flattenTop_cons, flattenTop_cons, flattenTop_cons]
      exact (permEqList_append (permEqO_toList ihea.1)
          (permEqList_append (permEqO_toList iheb.1) ((ihl op).2))).trans
        (perm_to_permEqList (perm_append_middle _ _ _))
  · intro m₁ m₂ m₃ pl₁ pl₂ ih₁ ih₂ op
    exact ⟨((ih₁ op).1).trans ((ih₂ op).1), ((ih₁ op).2).trans ((ih₂ op).2)⟩

/-! ## String-comparator order lemmas -/

theorem strLE_total (a b : String) : (strLE a b || strLE b a) = true := by
  unfold strLE
  rw [cmpStr_swap a b]
  cases cmpStr a b <;> decide

theorem strLE_trans (a b c : String) (h1 : strLE a b = true) (h2 : strLE b c = true) :
    strLE a c = true := by
  unfold strLE at h1 h2 ⊢
  simp only [decide_eq_true_eq] at h1 h2 ⊢
  rcases hab : cmpStr a b with _ | _ | _
  · rcases hbc : cmpStr b c with _ | _ | _
    · rw [cmpStr_lt_trans hab hbc]
      decide
    · have heq : b = c := (cmpStr_eq_iff b c).mp hbc
      subst heq
      rw [hab]
      decide
    · exact absurd hbc h2
  · have heq : a = b := (cmpStr_eq_iff a b).mp hab
    subst heq
    exact h2
  · exact absurd hab h1

theorem strLE_antisymm (a b : String) (h1 : strLE a b = true)
    (h2 : strLE b a = true) : a = b := by
  unfold strLE at h1 h2
  simp only [decide_eq_true_eq] at h1 h2
  rw [cmpStr_swap a b] at h2
  rcases h : cmpStr a b with _ | _ | _
  · rw [h] at h2
    exact absurd rfl h2
  · exact (cmpStr_eq_iff a b).mp h
  · exact absurd h h1

/-- Sorting respects permutation-equivalence on tie-free condition trees:
`sortedC` maps `PermEq`-related trees to the same tree when the left tree
is tie-free (tie-freeness also transfers to the right tree). -/
theorem sortedC_respects {c₁ c₂ : Cond} (h : PermEq c₁ c₂) (ht : TieFree c₁) :
    sortedC c₁ = sortedC c₂ := by
  refine ((@PermEq.rec
    (fun c₁ c₂ _ => TieFree c₁ → sortedC c₁ = sortedC c₂ ∧ TieFree c₂)
    (fun l₁ l₂ _ => TieFreeList l₁ →
      (sortedList l₁).Perm (sortedList l₂) ∧ TieFreeList l₂)
    ?_ ?_ ?_ ?_ ?_ ?_ c₁ c₂ h) ht).1
  · intro o f v _
    exact ⟨rfl, trivial⟩
  · intro op cs₁ cs₂ pl ihl ht
    obtain ⟨htl, hnt⟩ := ht
    obtain ⟨hperm, htl₂⟩ := ihl htl
    have hanti : ∀ a ∈ sortedList cs₁, ∀ b ∈ sortedList cs₁,
        condLE a b = true → condLE b a = true → a = b := by
      intro a ha b hb h1 h2
      exact hnt a ha b hb (condLE_antisymm_ties a b h1 h2)
    constructor
    · show Cond.conj op (sortLE condLE (sortedList cs₁)) =
        Cond.conj op (sortLE condLE (sortedList cs₂))
      rw [sortLE_eq_of_perm condLE condLE_total condLE_trans _ _ hperm hanti]
    · refine ⟨htl₂, ?_⟩
      intro a ha b hb heq
      exact hnt a (hperm.mem_iff.mpr ha) b (hperm.mem_iff.mpr hb) heq
  · intro _
    exact ⟨List.Perm.refl _, trivial⟩
  · intro a b l₁ l₂ pe pl ihe ihl ht
    obtain ⟨hta, htl⟩ := ht
    obtain ⟨hab, htb⟩ := ihe hta
    obtain ⟨hperm, htl₂⟩ := ihl htl
    constructor
    · show (sortedC a :: sortedList l₁).Perm (sortedC b :: sortedList l₂)
      rw [hab]
      exact hperm.cons _
    · exact ⟨htb, htl₂⟩
  · intro a a' b b' l₁ l₂ pea peb pl ihea iheb ihl ht
    obtain ⟨hta, htb, htl⟩ := ht
    obtain ⟨haa, hta'⟩ := ihea hta
    obtain ⟨hbb, htb'⟩ := iheb htb
    obtain ⟨hperm, htl₂⟩ := ihl htl
    constructor
    · show (sortedC a :: sortedC b :: sortedList l₁).Perm
        (sortedC b' :: sortedC a' :: sortedList l₂)
      rw [← haa, ← hbb]
      exact (List.Perm.swap (sortedC b) (sortedC a) (sortedList l₁)).trans
        ((hperm.cons (sortedC a)).cons (sortedC b))
    · exact ⟨htb', hta', htl₂⟩
  · intro m₁ m₂ m₃ pl₁ pl₂ ih₁ ih₂ ht
    obtain ⟨hp₁, ht₂⟩ := ih₁ ht
    obtain ⟨hp₂, ht₃⟩ := ih₂ ht₂
    exact ⟨hp₁.trans hp₂, ht₃⟩

theorem flattened_respects {o₁ o₂ : Option Cond} (h : PermEqO o₁ o₂) :
    PermEqO (flattened o₁) (flattened o₂) := by
  match o₁, o₂ with
  | none, none => exact trivial
  | some a, some b => exact flatten_respects h
  | none, some _ => exact absurd h not_false
  | some _, none => exact absurd h not_false

theorem sortedO_respects {o₁ o₂ : Option Cond} (h : PermEqO o₁ o₂)
    (ht : TieFreeO o₁) : o₁.map sortedC = o₂.map sortedC := by
  match o₁, o₂ with
  | none, none => rfl
  | some a, some b => exact congrArg some (sortedC_respects h ht)
  | none, some _ => exact absurd h not_false
  | some _, none => exact absurd h not_false

theorem selectO_respects {o₁ o₂ : Option (List (String × String))}
    (h : PermO o₁ o₂) (hd : DistinctSelectors o₁) :
    o₁.map (sortLE selectLE) = o₂.map (sortLE selectLE) := by
  match o₁, o₂ with
  | none, none => rfl
  | some a, some b =>
    refine congrArg some (sortLE_eq_of_perm selectLE
      (fun p q => strLE_total p.1 q.1) (fun p q r => strLE_trans p.1 q.1 r.1)
      a b h ?_)
    intro p hp q hq h1 h2
    exact hd p hp q hq (strLE_antisymm p.1 q.1 h1 h2)
  | none, some _ => exact absurd h not_false
  | some _, none => exact absurd h not_false

theorem groupByO_respects {o₁ o₂ : Option (List String)} (h : PermO o₁ o₂) :
    o₁.map (sortLE strLE) = o₂.map (sortLE strLE) := by
  match o₁, o₂ with
  | none, none => rfl
  | some a, some b =>
    exact congrArg some (sortLE_eq_of_perm strLE strLE_total strLE_trans a b h
      (fun x _ y _ h1 h2 => strLE_antisymm x y h1 h2))
  | none, some _ => exact absurd h not_false
  | some _, none => exact absurd h not_false

/-! ## Claim C3 -/

/-- C3 counterexamples: (1) duplication — `WHERE (a=1 AND a=1)` and
`WHERE a=1` normalize differently, since `flattened`/`sorted` never remove
duplicate conditions; (2) commutativity with a comparator tie — literals
`1` and `"1"` on the same field compare equal (`String(1) === "1"`), and
JS's stable sort keeps the input order of ties, so swapping the two
conditions changes the normal form; (3) associativity — left- and
right-nested chains of the same `AND` flatten to different trees (the
`flattened` re-inlining bug of C1/C2). -/
theorem normalizeAST_invariance_counterexamples :
    normalizeAST (astWithWhere (some (.conj .and [condA1, condA1]))) ≠
      normalizeAST (astWithWhere (some condA1)) ∧
    normalizeAST (astWithWhere (some (.conj .and [condTieI, condTieS]))) ≠
      normalizeAST (astWithWhere (some (.conj .and [condTieS, condTieI]))) ∧
    normalizeAST astDeepNest ≠ normalizeAST astDeepNestR := by
  refine ⟨?_, ?_, ?_⟩ <;> decide

/-- C3 (corrected): the claim says `normalizeAST` is invariant under
WHERE-clause associativity, commutativity and duplication and under
select/groupBy reordering.  Duplication and associativity invariance fail,
and comparator ties break commutativity
(`normalizeAST_invariance_counterexamples`).  The provable core: for two
ASTs that agree on every other field, normalization is invariant under
permutation of the conjunction lists of the WHERE clause — provided the
flattened WHERE clause is tie-free — and under reordering of the select
list (with distinct selectors) and of the groupBy list. -/
theorem normalizeAST_perm_invariant (A B : AST)
    (htable : A.table = B.table) (halias : A.tableAlias = B.tableAlias)
    (hagg : A.aggregate = B.aggregate) (hlimit : A.limit = B.limit)
    (horder : A.orderBy = B.orderBy)
    (hwhere : PermEqO A.whereClause B.whereClause)
    (hsel : PermO A.select B.select)
    (hgroup : PermO A.groupBy B.groupBy)
    (htf : TieFreeO (flattened A.whereClause))
    (hds : DistinctSelectors A.select) :
    normalizeAST A = normalizeAST B := by
  have hw : (flattened A.whereClause).map sortedC
      = (flattened B.whereClause).map sortedC :=
    sortedO_respects (flattened_respects hwhere) htf
  have hs : A.select.map (sortLE selectLE) = B.select.map (sortLE selectLE) :=
    selectO_respects hsel hds
  have hg : A.groupBy.map (sortLE strLE) = B.groupBy.map (sortLE strLE) :=
    groupByO_respects hgroup
  simp only [normalizeAST]
  rw [htable, halias, hagg, hlimit, horder, hw, hs, hg]

/-- Witness for `normalizeAST_perm_invariant` at a concrete pair of ASTs
differing in the order of their WHERE conjuncts, their select entries and
their groupBy columns. -/
theorem normalizeAST_perm_invariant_witness :
    normalizeAST astC3A = normalizeAST astC3B := by
  refine normalizeAST_perm_invariant astC3A astC3B rfl rfl rfl rfl rfl
    ?_ ?_ ?_ ?_ ?_
  · exact PermEq.conj .and (.swap (permEq_refl condA1) (permEq_refl condB2) .nil)
  · exact List.Perm.swap ("s2", "y") ("s1", "x") []
  · exact List.Perm.swap "h" "g" []
  · refine ⟨⟨trivial, trivial, trivial⟩, ?_⟩
    show ∀ a ∈ sortedList [condA1, condB2], ∀ b ∈ sortedList [condA1, condB2],
      cmpCond a b = .eq → a = b
    decide
  · show ∀ p ∈ [("s1", "x"), ("s2", "y")], ∀ q ∈ [("s1", "x"), ("s2", "y")],
      Prod.fst p = Prod.fst q → p = q
    decide

end ZQL
